import Mathlib

/- Verification development for the BEM SCSS generator (generate-scss-from-html-jsx-with-BEM).
The definitions below are a shallow embedding of the canonical implementation
(the variant with deduplication and the child-sorting post-pass): the class
extractor `getAllClassName`, the tokenizer `splitClassNameByBEMRule` with its
three regexes, the selector-tree builder `extractSCSS`, and the serializer
`parseToSCSS` / `generateSCSS`.  JavaScript regex searches are modelled as
maximal-munch scanners over `List Char`; scanners whose recursion is not
structural carry a fuel argument (fuel = input length, which the scanner never
exhausts, keeps every definition kernel-reducible).  The JS `TypeError` that
the builder can throw is modelled by `Option`: `none` is the thrown exception. -/

namespace BEMScss

/-- JS regex character class `[a-zA-Z0-9]` (ASCII letters and digits). -/
def isAlnum (c : Char) : Bool := c.isAlpha || c.isDigit

/-- Greedy match of `(?:-[a-zA-Z0-9]+)*`: consumes maximal repetitions of a
hyphen followed by a nonempty alphanumeric run; returns (consumed, rest).
Fueled to make the recursion structural; fuel at least the list length is
never exhausted. -/
def takeDashRunsF : Nat → List Char → List Char × List Char
  | 0, s => ([], s)
  | _ + 1, [] => ([], [])
  | fuel + 1, c :: rest =>
    if c = '-' then
      let t := rest.takeWhile isAlnum
      if t.isEmpty then ([], c :: rest)
      else
        let p := takeDashRunsF fuel (rest.dropWhile isAlnum)
        (c :: (t ++ p.1), p.2)
    else ([], c :: rest)

def takeDashRuns (s : List Char) : List Char × List Char := takeDashRunsF s.length s

/-- Source: BLOCK_REGEX `(^[a-zA-Z0-9]+(?:-[a-zA-Z0-9]+)*)` (part_000 line 21).
Anchored maximal-munch prefix match; returns (match text, rest), or `none`
when the string does not start with an alphanumeric character. -/
def blockWord (s : List Char) : Option (List Char × List Char) :=
  let t := s.takeWhile isAlnum
  if t.isEmpty then none
  else
    let p := takeDashRuns (s.dropWhile isAlnum)
    some (t ++ p.1, p.2)

/-- Source: ELEMENT_REGEX `__([a-zA-Z0-9]+(?:-[a-zA-Z0-9]+)*)` (part_000 line 25).
Leftmost match anywhere in the token; the code keeps match[0], which includes
the leading `__` marker. -/
def findElementF : Nat → List Char → Option (List Char)
  | 0, _ => none
  | _ + 1, [] => none
  | fuel + 1, c :: rest =>
    if c = '_' then
      match rest with
      | c2 :: rest2 =>
        if c2 = '_' then
          match blockWord rest2 with
          | some p => some ('_' :: '_' :: p.1)
          | none => findElementF fuel rest
        else findElementF fuel rest
      | [] => none
    else findElementF fuel rest

def findElement (s : List Char) : Option (List Char) := findElementF s.length s

/-- Source: MODIFIER_REGEX `--([a-zA-Z0-9]+(?:-[a-zA-Z0-9]+)*)$` (part_000 line 29).
Leftmost position whose `--`-led word reaches the end of the token (the `$`
anchor): the greedy word must consume the whole remainder, otherwise the
engine advances one position. match[0] includes the leading `--` marker. -/
def findModifierF : Nat → List Char → Option (List Char)
  | 0, _ => none
  | _ + 1, [] => none
  | fuel + 1, c :: rest =>
    if c = '-' then
      match rest with
      | c2 :: rest2 =>
        if c2 = '-' then
          match blockWord rest2 with
          | some p =>
            if p.2 = [] then some ('-' :: '-' :: p.1)
            else findModifierF fuel rest
          | none => findModifierF fuel rest
        else findModifierF fuel rest
      | [] => none
    else findModifierF fuel rest

def findModifier (s : List Char) : Option (List Char) := findModifierF s.length s

/-- Source: splitClassNameByBEMRule (part_000 lines 54-64).  The three regex
searches are independent; `x?.[0] || null` never collapses a match to null
here because every match of the three patterns is a nonempty string. -/
def splitClassNameByBEMRule (classString : String) :
    Option String × Option String × Option String :=
  match blockWord classString.data with
  | none => (none, none, none)
  | some p =>
    (some (String.mk p.1), (findElement classString.data).map String.mk,
      (findModifier classString.data).map String.mk)

/-- The two quote characters accepted by CLASS_NAME_REGEX. -/
def isQuote (c : Char) : Bool := c = '"' || c = '\x27'

/-- Matches one literal character sequence at the head; returns the rest on
success. -/
def stripChars : List Char → List Char → Option (List Char)
  | [], s => some s
  | _ :: _, [] => none
  | p :: ps, c :: cs => if p = c then stripChars ps cs else none

/-- `["']([^"']+)["']`: an opening quote (either kind), a nonempty maximal run
of non-quote characters, and a closing quote (either kind, independent of the
opening one).  Returns (captured value, rest after the match). -/
def matchValue : List Char → Option (List Char × List Char)
  | [] => none
  | q :: rest =>
    if isQuote q then
      let v := rest.takeWhile (fun c => !isQuote c)
      match rest.dropWhile (fun c => !isQuote c) with
      | _ :: r2 => if v.isEmpty then none else some (v, r2)
      | [] => none
    else none

/-- Source: CLASS_NAME_REGEX `class(?:Name)?=["']([^"']+)["']` (part_000 line
16), matched at the head of the list.  The optional `Name` group is tried
greedily; the two alternatives differ at the character right after `class`,
so no further backtracking arises. -/
def matchClassAt (s : List Char) : Option (List Char × List Char) :=
  match stripChars ("class".data) s with
  | none => none
  | some r1 =>
    match stripChars ("Name=".data) r1 with
    | some r2 => matchValue r2
    | none =>
      match stripChars ("=".data) r1 with
      | some r2 => matchValue r2
      | none => none

/-- `matchAll` with the global flag: repeated leftmost search resuming after
each match end; yields captured attribute values in order.  Each match
consumes at least eight characters while the fuel drops by one, so fuel =
input length is never exhausted. -/
def getMatchesF : Nat → List Char → List (List Char)
  | 0, _ => []
  | _ + 1, [] => []
  | fuel + 1, c :: rest =>
    match matchClassAt (c :: rest) with
    | some p => p.1 :: getMatchesF fuel p.2
    | none => getMatchesF fuel rest

def getMatches (s : List Char) : List (List Char) := getMatchesF s.length s

/-- Model of JS String.prototype.split(" "): split on each single space
character, keeping empty segments (from leading, trailing, or consecutive
spaces).  Other whitespace (tabs, newlines) does not separate. -/
def splitSp : List Char → List (List Char)
  | [] => [[]]
  | c :: cs =>
    if c = ' ' then [] :: splitSp cs
    else
      match splitSp cs with
      | t :: ts => (c :: t) :: ts
      | [] => [[c]]

/-- Source: getAllClassName (part_000 lines 40-43):
`Array.from(matches).flatMap((match) => match[1].split(" "))`. -/
def getAllClassName (htmlString : String) : List String :=
  (getMatches htmlString.data).flatMap (fun v => (splitSp v).map String.mk)

/-- Source: interface SASSObjectItem (part_000 lines 5-8):
`{ parent: string; children: SASSObjectItem[] }`. -/
structure SASSObjectItem where
  parent : String
  children : List SASSObjectItem

/-- Source: interface ISASSObject (part_000 lines 10-12), a JS object keyed by
block name, modelled as an insertion-ordered association list.  (JS objects
move integer-like keys first; no claim proved here depends on root order, and
both sides of every equation below build keys in the same order.) -/
abbrev ISASSObject := List (String × SASSObjectItem)

/-- Model of the JS `name.startsWith("--")` test used by the sort comparator. -/
def startsDashDash (s : String) : Bool :=
  match s.data with
  | c1 :: c2 :: _ => c1 = '-' && c2 = '-'
  | _ => false

/-- Lexicographic comparison of weight lists (one collation level). -/
def cmpNatList : List Nat → List Nat → Ordering
  | [], [] => .eq
  | [], _ :: _ => .lt
  | _ :: _, [] => .gt
  | a :: as, b :: bs => if a < b then .lt else if b < a then .gt else cmpNatList as bs

/-- Primary collation weight, modelling default-locale `localeCompare` on the
ASCII names the BEM regexes produce: connector and dash punctuation before
digits before case-folded letters.  (The comparator below only ever compares
two modifier names or two element names, which share their two-character
marker, so only the weights of `[a-zA-Z0-9-]` can decide an order.) -/
def primW (c : Char) : Nat :=
  if c = '_' then 0
  else if c = '-' then 1
  else if c.isDigit then 2 + (c.toNat - 48)
  else if c.isUpper then 12 + (c.toNat - 65)
  else if c.isLower then 12 + (c.toNat - 97)
  else 100 + c.toNat

/-- Tertiary (case) collation weight: lowercase before uppercase. -/
def caseW (c : Char) : Nat := if c.isUpper then 1 else 0

/-- Model of String.prototype.localeCompare in the default locale, restricted
to the ASCII repertoire of BEM names: full primary level first, then the case
level as tiebreak. -/
def localeCompare (a b : String) : Ordering :=
  match cmpNatList (a.data.map primW) (b.data.map primW) with
  | .eq => cmpNatList (a.data.map caseW) (b.data.map caseW)
  | o => o

/-- Source: the comparator of sortSASSObjectChildren (part_000 lines 68-82):
modifier-named children before element-named children, localeCompare within
the same kind.  The JS callback returns a negative, zero, or positive number;
only its sign matters to sort. -/
def childCompare (a b : SASSObjectItem) : Int :=
  let aIsModifier := startsDashDash a.parent
  let bIsModifier := startsDashDash b.parent
  if aIsModifier && !bIsModifier then -1
  else if !aIsModifier && bIsModifier then 1
  else
    match localeCompare a.parent b.parent with
    | .lt => -1
    | .eq => 0
    | .gt => 1

/-- Stable insertion used to model `Array.prototype.sort` (stable per the
ECMAScript specification): an element moves past exactly those elements that
compare strictly smaller, so ties keep their original relative order. -/
def insertSorted (x : SASSObjectItem) : List SASSObjectItem → List SASSObjectItem
  | [] => [x]
  | y :: ys => if childCompare y x < 0 then y :: insertSorted x ys else x :: y :: ys

/-- Source: sortSASSObjectChildren (part_000 lines 67-83):
`[...children].sort(comparator)` modelled as a stable sort. -/
def sortSASSObjectChildren (children : List SASSObjectItem) : List SASSObjectItem :=
  children.foldr insertSorted []

/-- Association-list read of `SASSObject[block]`. -/
def lookupBlock : ISASSObject → String → Option SASSObjectItem
  | [], _ => none
  | p :: ps, k => if p.1 = k then some p.2 else lookupBlock ps k

/-- Association-list write of `SASSObject[block] = node` for a key already
present (the first, and by construction only, entry with that key). -/
def updateBlock : ISASSObject → String → SASSObjectItem → ISASSObject
  | [], _, _ => []
  | p :: ps, k, v => if p.1 = k then (k, v) :: ps else p :: updateBlock ps k v

/-- `children.find((child) => child.parent === name)` tested for presence. -/
def hasChildNamed (n : SASSObjectItem) (name : String) : Bool :=
  n.children.any (fun c => c.parent = name)

/-- Source: part_000 lines 165-181: find the first child named `e`; if it
already holds modifier `mo`, continue; otherwise push `⟨mo, []⟩` into it.
When no child is named `e` the optional chain `alreadyElement?.` makes the
whole step a no-op. -/
def pushUnderElement : List SASSObjectItem → String → String → List SASSObjectItem
  | [], _, _ => []
  | c :: cs, e, mo =>
    if c.parent = e then
      if c.children.any (fun g => g.parent = mo) then c :: cs
      else ⟨c.parent, c.children ++ [⟨mo, []⟩]⟩ :: cs
    else c :: pushUnderElement cs e mo

/-- Source: part_000 lines 151-163: push a child named `e` unless one is
already present. -/
def ensureElementChild (node : SASSObjectItem) (e : String) : SASSObjectItem :=
  if hasChildNamed node e then node
  else ⟨node.parent, node.children ++ [⟨e, []⟩]⟩

/-- Source: part_000 lines 183-196: push a modifier child directly under the
block root unless one with that name is already present. -/
def ensureBlockModifier (node : SASSObjectItem) (mo : String) : SASSObjectItem :=
  if hasChildNamed node mo then node
  else ⟨node.parent, node.children ++ [⟨mo, []⟩]⟩

/-- The element/modifier part of the loop body (part_000 lines 151-196),
applied to the live block node: ensure the element child, then hang the
modifier under the element when both are present, or under the block root
when only the modifier is. -/
def applyElemMod (node : SASSObjectItem) (eOpt moOpt : Option String) :
    SASSObjectItem :=
  let node1 :=
    match eOpt with
    | some e => ensureElementChild node e
    | none => node
  match eOpt, moOpt with
  | some e, some mo => ⟨node1.parent, pushUnderElement node1.children e mo⟩
  | none, some mo => ensureBlockModifier node1 mo
  | _, none => node1

/-- Source: the loop body of extractSCSS (part_000 lines 133-196).  `none`
models the JS TypeError: `alreadyBlock` is read (line 139) before the block
entry is created (line 143), so when the block is absent and the token also
carries an element or modifier, the stale undefined binding is dereferenced
(lines 153, 166, 192) and the whole call throws before any update of the
node is visible.  When the token is block-only, the entry created at line
143 (when absent) is the only effect. -/
def bemStep (m : ISASSObject) (className : String) : Option ISASSObject :=
  match splitClassNameByBEMRule className with
  | (none, _, _) => some m
  | (some block, element, modifier) =>
    if element.isNone && modifier.isNone then
      some (if (lookupBlock m block).isSome then m
        else m ++ [(block, ⟨block, []⟩)])
    else
      match lookupBlock m block with
      | none => none
      | some node => some (updateBlock m block (applyElemMod node element modifier))

/-- Source: the final for-in loop of extractSCSS (part_000 lines 199-203):
every block root's direct children are sorted; deeper levels are untouched. -/
def sortAllBlocks (m : ISASSObject) : ISASSObject :=
  m.map (fun p => (p.1, ⟨p.2.parent, sortSASSObjectChildren p.2.children⟩))

/-- Source: extractSCSS (part_000 lines 130-205), canonical variant: fold the
class names through the builder step, then sort each root's children. -/
def extractSCSS (classNames : List String) : Option ISASSObject :=
  (classNames.foldlM bemStep []).map sortAllBlocks

/-- `"\t".repeat(indentLevel)`. -/
def tabIndent (n : Nat) : String := String.mk (List.replicate n '\t')

mutual

/-- Source: parseToSCSS (part_000 lines 219-254): the selector is `.name` at
top level and `&name` when nested, followed by an opening brace, a
placeholder line of two spaces, the children one level deeper, the closing
brace, and a blank separator line after each top-level block. -/
def parseToSCSS : SASSObjectItem → String → Nat → String
  | ⟨parent, children⟩, parentSelector, indentLevel =>
    let currentSelector :=
      if parentSelector = "" then "." ++ parent else "&" ++ parent
    let indent := tabIndent indentLevel
    indent ++ currentSelector ++ " \x7b\n" ++ indent ++ "  \n" ++
      parseChildren children currentSelector (indentLevel + 1) ++
      indent ++ "\x7d\n" ++ (if indentLevel = 0 then "\n" else "")

/-- The `for (const child of obj.children)` accumulation inside parseToSCSS. -/
def parseChildren : List SASSObjectItem → String → Nat → String
  | [], _, _ => ""
  | c :: cs, sel, lvl => parseToSCSS c sel lvl ++ parseChildren cs sel lvl

end

/-- Source: generateSCSS (part_000 lines 263-269): concatenate the rendering
of every block in forest order (Object.values order = the list order here). -/
def generateSCSS (sassObject : ISASSObject) : String :=
  sassObject.foldl (fun result p => result ++ parseToSCSS p.2 "" 0) ""

/-- Whether the first entry named `e` of a child list carries a child named
`mo` (the `existedElementModifier` test of part_000 lines 169-171). -/
def grandB (cs : List SASSObjectItem) (e mo : String) : Bool :=
  match cs.find? (fun c => c.parent = e) with
  | some c => c.children.any (fun g => g.parent = mo)
  | none => false

/-- `grandB` on a node's children. -/
def hasGrand (n : SASSObjectItem) (e mo : String) : Bool :=
  grandB n.children e mo

/-- Everything the builder step for `className` would establish is already
present in `m`; on such a state the step is the identity. -/
def tokenSat (m : ISASSObject) (className : String) : Prop :=
  match splitClassNameByBEMRule className with
  | (none, _, _) => True
  | (some b, eOpt, moOpt) =>
    match lookupBlock m b with
    | none => False
    | some node =>
      (match eOpt with
        | some e => hasChildNamed node e = true
        | none => True) ∧
      (match eOpt, moOpt with
        | some e, some mo => hasGrand node e mo = true
        | none, some mo => hasChildNamed node mo = true
        | _, none => True)

/-- Pairwise-distinct strings. -/
def allDiffNames : List String → Bool
  | [] => true
  | x :: xs => xs.all (fun y => !(x == y)) && allDiffNames xs

mutual

/-- Within every node of the tree, no two children share a `parent` name. -/
def nodupNames : SASSObjectItem → Bool
  | ⟨_, cs⟩ => allDiffNames (cs.map (fun c => c.parent)) && nodupNamesAll cs

def nodupNamesAll : List SASSObjectItem → Bool
  | [] => true
  | c :: cs => nodupNames c && nodupNamesAll cs

end

mutual

/-- Every node of the tree whose name starts with the modifier marker `--`
has no children. -/
def modifierLeaf : SASSObjectItem → Bool
  | ⟨p, cs⟩ => (!startsDashDash p || cs.isEmpty) && modifierLeafAll cs

def modifierLeafAll : List SASSObjectItem → Bool
  | [] => true
  | c :: cs => modifierLeaf c && modifierLeafAll cs

end

mutual

/-- Height of a selector tree (a childless node has height 1). -/
def heightI : SASSObjectItem → Nat
  | ⟨_, cs⟩ => 1 + heightAll cs

def heightAll : List SASSObjectItem → Nat
  | [] => 0
  | c :: cs => max (heightI c) (heightAll cs)

end

/-- The character repertoire of every name the three BEM regexes can capture:
ASCII alphanumerics, the hyphen, and the underscore. -/
def goodChar (c : Char) : Bool := isAlnum c || c = '-' || c = '_'

mutual

/-- Every name in the tree uses only regex-capturable characters. -/
def goodNames : SASSObjectItem → Bool
  | ⟨p, cs⟩ => p.data.all goodChar && goodNamesAll cs

def goodNamesAll : List SASSObjectItem → Bool
  | [] => true
  | c :: cs => goodNames c && goodNamesAll cs

end

/-- Brace-nesting scanner: `some d` is the open-brace depth after the scan;
`none` means a closing brace appeared at depth zero.  `braceScan s 0 = some 0`
says the braces of `s` are balanced and properly nested. -/
def braceScan : List Char → Nat → Option Nat
  | [], d => some d
  | c :: cs, d =>
    if c = '\x7b' then braceScan cs (d + 1)
    else if c = '\x7d' then
      match d with
      | 0 => none
      | e + 1 => braceScan cs e
    else braceScan cs d

/-- Number of maximal nonempty whitespace-free chunks, tracking whether the
previous character was whitespace. -/
def wordStarts : List Char → Bool → Nat
  | [], _ => 0
  | c :: cs, prevWs =>
    if c.isWhitespace then wordStarts cs true
    else (if prevWs then 1 else 0) + wordStarts cs false

/-- The spec's count ("one ClassToken per whitespace-separated word", §4.1,
§8): total number of whitespace-separated words across all matched
class-attribute values.  Stated from the spec's words, for comparison with
the implementation's `getAllClassName`. -/
def specWordCount (s : String) : Nat :=
  ((getMatches s.data).map (fun v => wordStarts v true)).sum

/-- C2: splitClassNameByBEMRule maps "block" to ("block", absent, absent);
"block__el" to ("block", "__el", absent); "block--mod" to
("block", absent, "--mod"); and "block__el--mod" to
("block", "__el", "--mod") — the element is captured including its leading
"__" marker and the modifier including its leading "--" marker. -/
theorem splitClassNameByBEMRule_four_shapes :
    splitClassNameByBEMRule "block" = (some "block", none, none) ∧
    splitClassNameByBEMRule "block__el" = (some "block", some "__el", none) ∧
    splitClassNameByBEMRule "block--mod" = (some "block", none, some "--mod") ∧
    splitClassNameByBEMRule "block__el--mod" =
      (some "block", some "__el", some "--mod") :=
  ⟨rfl, rfl, rfl, rfl⟩

/-- C7 counterexample: on the token "a--b__c" the claimed non-absent modifier
is in fact absent: the modifier pattern is anchored at the end of the token
by `$`, and "a--b__c" does not end with a `--`-led word, so the modifier
component is `none`. -/
theorem splitClassNameByBEMRule_out_of_order_no_modifier :
    (splitClassNameByBEMRule "a--b__c").2.2 = none :=
  rfl

/-- C7 (amended): for the token "a--b__c" (modifier marker before an element
marker) the element search still matches positionally, yielding the element
"__c" that does not reflect the token's left-to-right structure, while the
end-anchored modifier pattern fails to match, leaving the modifier absent. -/
theorem splitClassNameByBEMRule_out_of_order_token :
    splitClassNameByBEMRule "a--b__c" = (some "a", some "__c", none) :=
  rfl

/-- C1: the canonical extractSCSS is NOT total: when the first occurrence of
a block arrives in a token that also carries an element or a modifier, the
stale `alreadyBlock` binding (read before the block entry is created) is
dereferenced and the call throws a TypeError (modelled as `none`).  The
second input is the spec's own §8 scenario, which crashes the same way on
"view-cart__image". -/
theorem extractSCSS_throws_on_element_first_token :
    extractSCSS ["view-cart__image"] = none ∧
    extractSCSS ["view-card", "view-cart__image", "view-cart__body",
      "view-cart__title"] = none ∧
    extractSCSS ["btn--active"] = none :=
  ⟨rfl, rfl, rfl⟩

/-- C8: a class token with no leading block pattern match tokenizes to three
absent components, and the builder skips it without mutating the forest: the
result is exactly the result of running the pipeline without that token, and
no error is surfaced. -/
theorem extractSCSS_skips_blockless_token (c : String)
    (h : blockWord c.data = none) :
    splitClassNameByBEMRule c = (none, none, none) ∧
    ∀ cs1 cs2 : List String,
      extractSCSS (cs1 ++ c :: cs2) = extractSCSS (cs1 ++ cs2) := by
  have hsplit : splitClassNameByBEMRule c = (none, none, none) := by
    unfold splitClassNameByBEMRule
    rw [h]
  refine ⟨hsplit, ?_⟩
  intro cs1 cs2
  have hstep : ∀ m : ISASSObject, bemStep m c = some m := by
    intro m
    unfold bemStep
    rw [hsplit]
  unfold extractSCSS
  rw [List.foldlM_append, List.foldlM_append]
  cases h1 : cs1.foldlM bemStep [] with
  | none => rfl
  | some m => simp [h1, hstep]

/-- C8 witness: the malformed token "-oops" (leading hyphen, so no block
match) is skipped with no effect on the surrounding tokens. -/
theorem extractSCSS_skips_blockless_token_witness :
    splitClassNameByBEMRule "-oops" = (none, none, none) ∧
    extractSCSS ["b", "-oops", "b__e"] = extractSCSS ["b", "b__e"] := by
  have h := extractSCSS_skips_blockless_token "-oops" rfl
  exact ⟨h.1, h.2 ["b"] ["b__e"]⟩

theorem lookupBlock_append_left {m : ISASSObject} {k : String}
    {v : SASSObjectItem} (t : ISASSObject) (h : lookupBlock m k = some v) :
    lookupBlock (m ++ t) k = some v := by
  induction m with
  | nil => exact absurd h (by simp [lookupBlock])
  | cons p ps ih =>
    simp only [lookupBlock] at h
    simp only [List.cons_append, lookupBlock]
    by_cases hp : p.1 = k
    · rw [if_pos hp] at h ⊢
      exact h
    · rw [if_neg hp] at h ⊢
      exact ih h

theorem lookupBlock_append_self {m : ISASSObject} {k : String}
    (v : SASSObjectItem) (h : lookupBlock m k = none) :
    lookupBlock (m ++ [(k, v)]) k = some v := by
  induction m with
  | nil => simp [lookupBlock]
  | cons p ps ih =>
    simp only [lookupBlock] at h
    simp only [List.cons_append, lookupBlock]
    by_cases hp : p.1 = k
    · rw [if_pos hp] at h
      exact absurd h (by simp)
    · rw [if_neg hp] at h ⊢
      exact ih h

theorem lookupBlock_updateBlock_self {m : ISASSObject} {k : String}
    {v : SASSObjectItem} (w : SASSObjectItem) (h : lookupBlock m k = some v) :
    lookupBlock (updateBlock m k w) k = some w := by
  induction m with
  | nil => exact absurd h (by simp [lookupBlock])
  | cons p ps ih =>
    simp only [lookupBlock] at h
    simp only [updateBlock]
    by_cases hp : p.1 = k
    · rw [if_pos hp]
      simp [lookupBlock]
    · rw [if_neg hp] at h
      rw [if_neg hp]
      simp only [lookupBlock]
      rw [if_neg hp]
      exact ih h

theorem lookupBlock_updateBlock_ne {m : ISASSObject} {k k' : String}
    (w : SASSObjectItem) (h : k' ≠ k) :
    lookupBlock (updateBlock m k w) k' = lookupBlock m k' := by
  induction m with
  | nil => simp [updateBlock]
  | cons p ps ih =>
    simp only [updateBlock]
    by_cases hp : p.1 = k
    · rw [if_pos hp]
      simp only [lookupBlock]
      rw [if_neg (show ¬(k = k') from fun hk => h hk.symm)]
      rw [if_neg (show ¬(p.1 = k') from by rw [hp]; exact fun hk => h hk.symm)]
    · rw [if_neg hp]
      simp only [lookupBlock]
      by_cases hq : p.1 = k'
      · rw [if_pos hq, if_pos hq]
      · rw [if_neg hq, if_neg hq]
        exact ih

theorem updateBlock_self_id {m : ISASSObject} {k : String}
    {v : SASSObjectItem} (h : lookupBlock m k = some v) :
    updateBlock m k v = m := by
  induction m with
  | nil => rfl
  | cons p ps ih =>
    simp only [lookupBlock] at h
    simp only [updateBlock]
    by_cases hp : p.1 = k
    · rw [if_pos hp] at h
      rw [if_pos hp]
      cases p with
      | mk a b =>
        dsimp only at hp h
        subst hp
        rw [Option.some.injEq] at h
        subst h
        rfl
    · rw [if_neg hp] at h
      rw [if_neg hp, ih h]

theorem mem_updateBlock {m : ISASSObject} {k : String} {w : SASSObjectItem}
    {p : String × SASSObjectItem} (h : p ∈ updateBlock m k w) :
    p ∈ m ∨ p = (k, w) := by
  induction m with
  | nil => exact absurd h (by simp [updateBlock])
  | cons q qs ih =>
    simp only [updateBlock] at h
    by_cases hq : q.1 = k
    · rw [if_pos hq] at h
      rcases List.mem_cons.mp h with h1 | h1
      · exact Or.inr h1
      · exact Or.inl (List.mem_cons_of_mem _ h1)
    · rw [if_neg hq] at h
      rcases List.mem_cons.mp h with h1 | h1
      · exact Or.inl (h1 ▸ List.mem_cons_self _ _)
      · rcases ih h1 with h2 | h2
        · exact Or.inl (List.mem_cons_of_mem _ h2)
        · exact Or.inr h2

theorem pushUnderElement_parents (cs : List SASSObjectItem) (e mo : String) :
    (pushUnderElement cs e mo).map (fun c => c.parent) =
      cs.map (fun c => c.parent) := by
  induction cs with
  | nil => rfl
  | cons c cs ih =>
    simp only [pushUnderElement]
    by_cases hc : c.parent = e
    · rw [if_pos hc]
      by_cases hm : c.children.any (fun g => g.parent = mo)
      · rw [if_pos hm]
      · rw [if_neg hm]
        simp
    · rw [if_neg hc]
      simp [ih]

theorem grandB_pushUnderElement_self {cs : List SASSObjectItem} {e : String}
    (mo : String) (h : cs.any (fun c => c.parent = e) = true) :
    grandB (pushUnderElement cs e mo) e mo = true := by
  induction cs with
  | nil => simp at h
  | cons c cs ih =>
    simp only [pushUnderElement]
    by_cases hc : c.parent = e
    · rw [if_pos hc]
      by_cases hm : c.children.any (fun g => g.parent = mo)
      · rw [if_pos hm]
        simp only [grandB]
        rw [List.find?_cons_of_pos _ (by simpa using hc)]
        exact hm
      · rw [if_neg hm]
        simp only [grandB]
        rw [List.find?_cons_of_pos _ (by simpa using hc)]
        simp
    · rw [if_neg hc]
      simp only [grandB]
      rw [List.find?_cons_of_neg _ (by simpa using hc)]
      have h2 : cs.any (fun c => c.parent = e) = true := by
        simpa [hc] using h
      exact ih h2

theorem pushUnderElement_id {cs : List SASSObjectItem} {e mo : String}
    (h : grandB cs e mo = true) : pushUnderElement cs e mo = cs := by
  induction cs with
  | nil => rfl
  | cons c cs ih =>
    simp only [grandB] at h
    simp only [pushUnderElement]
    by_cases hc : c.parent = e
    · rw [List.find?_cons_of_pos _ (by simpa using hc)] at h
      rw [if_pos hc, if_pos h]
    · rw [List.find?_cons_of_neg _ (by simpa using hc)] at h
      rw [if_neg hc, ih h]

theorem grandB_pushUnderElement_mono {cs : List SASSObjectItem}
    {x y e mo : String} (h : grandB cs x y = true) :
    grandB (pushUnderElement cs e mo) x y = true := by
  induction cs with
  | nil => simp [grandB, List.find?] at h
  | cons c cs ih =>
    simp only [grandB] at h ⊢
    simp only [pushUnderElement]
    by_cases hc : c.parent = e
    · rw [if_pos hc]
      by_cases hm : c.children.any (fun g => g.parent = mo)
      · rw [if_pos hm]
        exact h
      · rw [if_neg hm]
        by_cases hx : c.parent = x
        · rw [List.find?_cons_of_pos _ (by simpa using hx)] at h
          rw [List.find?_cons_of_pos _ (by simpa using hx)]
          dsimp only at h ⊢
          simp only [List.any_append, Bool.or_eq_true]
          exact Or.inl h
        · rw [List.find?_cons_of_neg _ (by simpa using hx)] at h
          rw [List.find?_cons_of_neg _ (by simpa using hx)]
          exact h
    · rw [if_neg hc]
      by_cases hx : c.parent = x
      · rw [List.find?_cons_of_pos _ (by simpa using hx)] at h
        rw [List.find?_cons_of_pos _ (by simpa using hx)]
        exact h
      · rw [List.find?_cons_of_neg _ (by simpa using hx)] at h
        rw [List.find?_cons_of_neg _ (by simpa using hx)]
        exact ih h

theorem grandB_append_mono {cs : List SASSObjectItem} {x y : String}
    (t : List SASSObjectItem) (h : grandB cs x y = true) :
    grandB (cs ++ t) x y = true := by
  induction cs with
  | nil => simp [grandB, List.find?] at h
  | cons c cs ih =>
    simp only [grandB] at h ⊢
    simp only [List.cons_append]
    by_cases hx : c.parent = x
    · rw [List.find?_cons_of_pos _ (by simpa using hx)] at h
      rw [List.find?_cons_of_pos _ (by simpa using hx)]
      exact h
    · rw [List.find?_cons_of_neg _ (by simpa using hx)] at h
      rw [List.find?_cons_of_neg _ (by simpa using hx)]
      exact ih h

theorem anyParent_pushUnderElement (cs : List SASSObjectItem)
    (e mo x : String) :
    (pushUnderElement cs e mo).any (fun c => c.parent = x) =
      cs.any (fun c => c.parent = x) := by
  have key : ∀ l : List SASSObjectItem,
      l.any (fun c => c.parent = x) =
        (l.map (fun c => c.parent)).any (fun s => s = x) := by
    intro l
    induction l with
    | nil => rfl
    | cons c cs ih => simp [List.any_cons, List.map_cons, ih]
  rw [key, key, pushUnderElement_parents]

theorem hasChildNamed_ensureElementChild_self (node : SASSObjectItem)
    (e : String) : hasChildNamed (ensureElementChild node e) e = true := by
  unfold ensureElementChild
  by_cases h : hasChildNamed node e
  · rwa [if_pos h]
  · rw [if_neg h]
    simp [hasChildNamed]

theorem hasChildNamed_ensureBlockModifier_self (node : SASSObjectItem)
    (mo : String) : hasChildNamed (ensureBlockModifier node mo) mo = true := by
  unfold ensureBlockModifier
  by_cases h : hasChildNamed node mo
  · rwa [if_pos h]
  · rw [if_neg h]
    simp [hasChildNamed]

theorem hasChildNamed_ensureElementChild_mono {node : SASSObjectItem}
    {x : String} (e : String) (h : hasChildNamed node x = true) :
    hasChildNamed (ensureElementChild node e) x = true := by
  unfold ensureElementChild
  by_cases he : hasChildNamed node e
  · rwa [if_pos he]
  · rw [if_neg he]
    simp only [hasChildNamed, List.any_append, Bool.or_eq_true] at h ⊢
    exact Or.inl h

theorem hasChildNamed_ensureBlockModifier_mono {node : SASSObjectItem}
    {x : String} (mo : String) (h : hasChildNamed node x = true) :
    hasChildNamed (ensureBlockModifier node mo) x = true := by
  unfold ensureBlockModifier
  by_cases he : hasChildNamed node mo
  · rwa [if_pos he]
  · rw [if_neg he]
    simp only [hasChildNamed, List.any_append, Bool.or_eq_true] at h ⊢
    exact Or.inl h

theorem hasGrand_ensureElementChild_mono {node : SASSObjectItem}
    {x y : String} (e : String) (h : hasGrand node x y = true) :
    hasGrand (ensureElementChild node e) x y = true := by
  unfold ensureElementChild
  by_cases he : hasChildNamed node e
  · rwa [if_pos he]
  · rw [if_neg he]
    exact grandB_append_mono _ h

theorem hasGrand_ensureBlockModifier_mono {node : SASSObjectItem}
    {x y : String} (mo : String) (h : hasGrand node x y = true) :
    hasGrand (ensureBlockModifier node mo) x y = true := by
  unfold ensureBlockModifier
  by_cases he : hasChildNamed node mo
  · rwa [if_pos he]
  · rw [if_neg he]
    exact grandB_append_mono _ h

theorem hasChildNamed_applyElemMod_mono {node : SASSObjectItem} {x : String}
    (eOpt moOpt : Option String) (h : hasChildNamed node x = true) :
    hasChildNamed (applyElemMod node eOpt moOpt) x = true := by
  unfold applyElemMod
  cases eOpt with
  | none =>
    cases moOpt with
    | none => exact h
    | some mo => exact hasChildNamed_ensureBlockModifier_mono mo h
  | some e =>
    cases moOpt with
    | none => exact hasChildNamed_ensureElementChild_mono e h
    | some mo =>
      unfold hasChildNamed
      dsimp only
      rw [anyParent_pushUnderElement]
      exact hasChildNamed_ensureElementChild_mono e h

theorem hasGrand_applyElemMod_mono {node : SASSObjectItem} {x y : String}
    (eOpt moOpt : Option String) (h : hasGrand node x y = true) :
    hasGrand (applyElemMod node eOpt moOpt) x y = true := by
  unfold applyElemMod
  cases eOpt with
  | none =>
    cases moOpt with
    | none => exact h
    | some mo => exact hasGrand_ensureBlockModifier_mono mo h
  | some e =>
    cases moOpt with
    | none => exact hasGrand_ensureElementChild_mono e h
    | some mo =>
      exact grandB_pushUnderElement_mono (hasGrand_ensureElementChild_mono e h)

theorem item_eta (n : SASSObjectItem) :
    SASSObjectItem.mk n.parent n.children = n := by
  cases n
  rfl

theorem applyElemMod_none_some {node : SASSObjectItem} {mo : String}
    (h : hasChildNamed node mo = true) :
    applyElemMod node none (some mo) = node := by
  unfold applyElemMod ensureBlockModifier
  dsimp only
  rw [if_pos h]

theorem applyElemMod_some_none {node : SASSObjectItem} {e : String}
    (h : hasChildNamed node e = true) :
    applyElemMod node (some e) none = node := by
  unfold applyElemMod ensureElementChild
  dsimp only
  rw [if_pos h]

theorem applyElemMod_some_some_fixed {node : SASSObjectItem} {e mo : String}
    (h1 : hasChildNamed node e = true) (h2 : hasGrand node e mo = true) :
    applyElemMod node (some e) (some mo) = node := by
  unfold applyElemMod ensureElementChild
  dsimp only
  rw [if_pos h1]
  rw [pushUnderElement_id h2]
  exact item_eta node

theorem bemStep_of_tokenSat {m : ISASSObject} {c : String} (hs : tokenSat m c) :
    bemStep m c = some m := by
  unfold tokenSat at hs
  unfold bemStep
  rcases hsplit : splitClassNameByBEMRule c with ⟨bOpt, eOpt, moOpt⟩
  rw [hsplit] at hs
  cases bOpt with
  | none => rfl
  | some b =>
    dsimp only at hs ⊢
    cases hb : lookupBlock m b with
    | none =>
      rw [hb] at hs
      exact False.elim hs
    | some node =>
      rw [hb] at hs
      dsimp only at hs
      cases eOpt with
      | none =>
        cases moOpt with
        | none => simp
        | some mo =>
          have h2 : hasChildNamed node mo = true := hs.2
          rw [if_neg (by simp)]
          dsimp only
          rw [applyElemMod_none_some h2, updateBlock_self_id hb]
      | some e =>
        have h1 : hasChildNamed node e = true := hs.1
        cases moOpt with
        | none =>
          rw [if_neg (by simp)]
          dsimp only
          rw [applyElemMod_some_none h1, updateBlock_self_id hb]
        | some mo =>
          have h2 : hasGrand node e mo = true := hs.2
          rw [if_neg (by simp)]
          dsimp only
          rw [applyElemMod_some_some_fixed h1 h2, updateBlock_self_id hb]

theorem tokenSat_after_bemStep {m m' : ISASSObject} {c : String}
    (h : bemStep m c = some m') : tokenSat m' c := by
  unfold bemStep at h
  unfold tokenSat
  rcases hsplit : splitClassNameByBEMRule c with ⟨bOpt, eOpt, moOpt⟩
  rw [hsplit] at h
  cases bOpt with
  | none => trivial
  | some b =>
    dsimp only at h ⊢
    cases eOpt with
    | none =>
      cases moOpt with
      | none =>
        cases hb : lookupBlock m b with
        | none =>
          rw [hb] at h
          simp at h
          subst h
          rw [lookupBlock_append_self _ hb]
          exact ⟨trivial, trivial⟩
        | some node =>
          rw [hb] at h
          simp at h
          subst h
          rw [hb]
          exact ⟨trivial, trivial⟩
      | some mo =>
        rw [if_neg (by simp)] at h
        cases hb : lookupBlock m b with
        | none =>
          rw [hb] at h
          exact absurd h (by simp)
        | some node =>
          rw [hb] at h
          dsimp only at h
          rw [Option.some.injEq] at h
          subst h
          rw [lookupBlock_updateBlock_self _ hb]
          refine ⟨trivial, ?_⟩
          unfold applyElemMod
          dsimp only
          exact hasChildNamed_ensureBlockModifier_self node mo
    | some e =>
      rw [if_neg (by simp)] at h
      cases hb : lookupBlock m b with
      | none =>
        rw [hb] at h
        exact absurd h (by simp)
      | some node =>
        rw [hb] at h
        dsimp only at h
        rw [Option.some.injEq] at h
        subst h
        rw [lookupBlock_updateBlock_self _ hb]
        cases moOpt with
        | none =>
          refine ⟨?_, trivial⟩
          unfold applyElemMod
          dsimp only
          exact hasChildNamed_ensureElementChild_self node e
        | some mo =>
          constructor
          · unfold applyElemMod hasChildNamed
            dsimp only
            rw [anyParent_pushUnderElement]
            exact hasChildNamed_ensureElementChild_self node e
          · unfold applyElemMod hasGrand
            dsimp only
            exact grandB_pushUnderElement_self mo
              (hasChildNamed_ensureElementChild_self node e)

theorem tokenSat_append_mono {m : ISASSObject} (t : ISASSObject) {d : String}
    (hd : tokenSat m d) : tokenSat (m ++ t) d := by
  unfold tokenSat at hd ⊢
  rcases hs : splitClassNameByBEMRule d with ⟨bOpt, eOpt, moOpt⟩
  rw [hs] at hd
  cases bOpt with
  | none => trivial
  | some b =>
    dsimp only at hd ⊢
    cases hb : lookupBlock m b with
    | none =>
      rw [hb] at hd
      exact False.elim hd
    | some node =>
      rw [hb] at hd
      rw [lookupBlock_append_left t hb]
      exact hd

theorem tokenSat_update_mono {m : ISASSObject} {b : String}
    {node : SASSObjectItem} (hb : lookupBlock m b = some node)
    (eOpt moOpt : Option String) {d : String} (hd : tokenSat m d) :
    tokenSat (updateBlock m b (applyElemMod node eOpt moOpt)) d := by
  unfold tokenSat at hd ⊢
  rcases hs : splitClassNameByBEMRule d with ⟨bOptd, eOptd, moOptd⟩
  rw [hs] at hd
  cases bOptd with
  | none => trivial
  | some bd =>
    dsimp only at hd ⊢
    cases hb' : lookupBlock m bd with
    | none =>
      rw [hb'] at hd
      exact False.elim hd
    | some noded =>
      rw [hb'] at hd
      dsimp only at hd
      by_cases hbb : bd = b
      · subst hbb
        rw [hb'] at hb
        rw [Option.some.injEq] at hb
        subst hb
        rw [lookupBlock_updateBlock_self _ hb']
        dsimp only
        refine ⟨?_, ?_⟩
        · cases eOptd with
          | none => trivial
          | some ed => exact hasChildNamed_applyElemMod_mono eOpt moOpt hd.1
        · cases eOptd with
          | none =>
            cases moOptd with
            | none => trivial
            | some mod => exact hasChildNamed_applyElemMod_mono eOpt moOpt hd.2
          | some ed =>
            cases moOptd with
            | none => trivial
            | some mod => exact hasGrand_applyElemMod_mono eOpt moOpt hd.2
      · rw [lookupBlock_updateBlock_ne _ hbb, hb']
        exact hd

theorem tokenSat_mono {m m' : ISASSObject} {c d : String}
    (h : bemStep m c = some m') (hd : tokenSat m d) : tokenSat m' d := by
  unfold bemStep at h
  rcases hsplit : splitClassNameByBEMRule c with ⟨bOpt, eOpt, moOpt⟩
  rw [hsplit] at h
  cases bOpt with
  | none =>
    dsimp only at h
    rw [Option.some.injEq] at h
    subst h
    exact hd
  | some b =>
    dsimp only at h
    cases eOpt with
    | none =>
      cases moOpt with
      | none =>
        cases hb : lookupBlock m b with
        | none =>
          rw [hb] at h
          simp at h
          subst h
          exact tokenSat_append_mono _ hd
        | some node =>
          rw [hb] at h
          simp at h
          subst h
          exact hd
      | some mo =>
        rw [if_neg (by simp)] at h
        cases hb : lookupBlock m b with
        | none =>
          rw [hb] at h
          exact absurd h (by simp)
        | some node =>
          rw [hb] at h
          dsimp only at h
          rw [Option.some.injEq] at h
          subst h
          exact tokenSat_update_mono hb none (some mo) hd
    | some e =>
      rw [if_neg (by simp)] at h
      cases hb : lookupBlock m b with
      | none =>
        rw [hb] at h
        exact absurd h (by simp)
      | some node =>
        rw [hb] at h
        dsimp only at h
        rw [Option.some.injEq] at h
        subst h
        exact tokenSat_update_mono hb (some e) moOpt hd

theorem foldlM_bemStep_persist : ∀ (l : List String) {m m' : ISASSObject},
    l.foldlM bemStep m = some m' →
    ∀ {d : String}, tokenSat m d → tokenSat m' d := by
  intro l
  induction l with
  | nil =>
    intro m m' h d hd
    simp only [List.foldlM_nil] at h
    cases h
    exact hd
  | cons c cs ih =>
    intro m m' h d hd
    rw [List.foldlM_cons] at h
    cases hstep : bemStep m c with
    | none =>
      rw [hstep] at h
      exact absurd h (by simp)
    | some m1 =>
      rw [hstep] at h
      exact ih h (tokenSat_mono hstep hd)

theorem foldlM_bemStep_all : ∀ (l : List String) {m m' : ISASSObject},
    l.foldlM bemStep m = some m' → ∀ c ∈ l, tokenSat m' c := by
  intro l
  induction l with
  | nil =>
    intro m m' h c hc
    exact absurd hc (by simp)
  | cons c0 cs ih =>
    intro m m' h c hc
    rw [List.foldlM_cons] at h
    cases hstep : bemStep m c0 with
    | none =>
      rw [hstep] at h
      exact absurd h (by simp)
    | some m1 =>
      rw [hstep] at h
      rcases List.mem_cons.mp hc with rfl | hmem
      · exact foldlM_bemStep_persist cs h (tokenSat_after_bemStep hstep)
      · exact ih h c hmem

theorem foldlM_bemStep_fixed : ∀ (l : List String) {m : ISASSObject},
    (∀ c ∈ l, tokenSat m c) → l.foldlM bemStep m = some m := by
  intro l
  induction l with
  | nil =>
    intro m h
    rfl
  | cons c cs ih =>
    intro m h
    rw [List.foldlM_cons]
    rw [bemStep_of_tokenSat (h c (List.mem_cons_self c cs))]
    exact ih (fun d hd => h d (List.mem_cons_of_mem _ hd))

/-- C5: for every class-name sequence s, feeding the concatenation s ++ s to
the Builder extractSCSS produces a forest identical to feeding s once:
duplicate block, element, and modifier names never create duplicate nodes
(and when the first pass throws, the doubled input throws at the same
token). -/
theorem extractSCSS_idempotent_concat (s : List String) :
    extractSCSS (s ++ s) = extractSCSS s := by
  unfold extractSCSS
  rw [List.foldlM_append]
  cases h : s.foldlM bemStep [] with
  | none => rfl
  | some m =>
    have hall : ∀ c ∈ s, tokenSat m c := foldlM_bemStep_all s h
    show (s.foldlM bemStep m).map sortAllBlocks = (some m).map sortAllBlocks
    rw [foldlM_bemStep_fixed s hall]

theorem insertSorted_perm (x : SASSObjectItem) (l : List SASSObjectItem) :
    List.Perm (insertSorted x l) (x :: l) := by
  induction l with
  | nil => exact List.Perm.refl _
  | cons y ys ih =>
    simp only [insertSorted]
    by_cases h : childCompare y x < 0
    · rw [if_pos h]
      exact ((ih.cons y).trans (List.Perm.swap x y ys))
    · rw [if_neg h]

theorem sortSASSObjectChildren_perm (cs : List SASSObjectItem) :
    List.Perm (sortSASSObjectChildren cs) cs := by
  unfold sortSASSObjectChildren
  induction cs with
  | nil => exact List.Perm.refl _
  | cons c cs ih =>
    simp only [List.foldr_cons]
    exact (insertSorted_perm c (cs.foldr insertSorted [])).trans (ih.cons c)

theorem cmpNatList_swap (a : List Nat) : ∀ b,
    cmpNatList b a = (cmpNatList a b).swap := by
  induction a with
  | nil =>
    intro b
    cases b <;> rfl
  | cons x xs ih =>
    intro b
    cases b with
    | nil => rfl
    | cons y ys =>
      simp only [cmpNatList]
      rcases Nat.lt_trichotomy x y with h | h | h
      · rw [if_neg (by omega), if_pos h, if_pos h]
        rfl
      · subst h
        have hx : ¬ x < x := by omega
        simp only [if_neg hx]
        exact ih ys
      · rw [if_pos h, if_neg (by omega), if_pos h]
        rfl

theorem cmpNatList_eq_iff (a : List Nat) : ∀ b,
    cmpNatList a b = .eq ↔ a = b := by
  induction a with
  | nil =>
    intro b
    cases b <;> simp [cmpNatList]
  | cons x xs ih =>
    intro b
    cases b with
    | nil => simp [cmpNatList]
    | cons y ys =>
      simp only [cmpNatList]
      rcases Nat.lt_trichotomy x y with h | h | h
      · rw [if_pos h]
        simp only [List.cons.injEq]
        constructor
        · intro hcontra
          exact absurd hcontra (by simp)
        · rintro ⟨h1, h2⟩
          omega
      · subst h
        have hx : ¬ x < x := by omega
        simp only [if_neg hx]
        rw [ih ys]
        simp
      · rw [if_neg (by omega), if_pos h]
        simp only [List.cons.injEq]
        constructor
        · intro hcontra
          exact absurd hcontra (by simp)
        · rintro ⟨h1, h2⟩
          omega

theorem cmpNatList_lt_trans (a : List Nat) : ∀ b c,
    cmpNatList a b = .lt → cmpNatList b c = .lt → cmpNatList a c = .lt := by
  induction a with
  | nil =>
    intro b c hab hbc
    cases b with
    | nil => exact absurd hab (by simp [cmpNatList])
    | cons y ys =>
      cases c with
      | nil => exact absurd hbc (by simp [cmpNatList])
      | cons z zs => rfl
  | cons x xs ih =>
    intro b c hab hbc
    cases b with
    | nil => exact absurd hab (by simp [cmpNatList])
    | cons y ys =>
      cases c with
      | nil => exact absurd hbc (by simp [cmpNatList])
      | cons z zs =>
        simp only [cmpNatList] at hab hbc ⊢
        by_cases h1 : x < y
        · rw [if_pos h1] at hab
          by_cases h2 : y < z
          · rw [if_pos (show x < z by omega)]
          · rw [if_neg h2] at hbc
            by_cases h3 : z < y
            · rw [if_pos h3] at hbc
              exact absurd hbc (by simp)
            · rw [if_neg h3] at hbc
              rw [if_pos (show x < z by omega)]
        · rw [if_neg h1] at hab
          by_cases h4 : y < x
          · rw [if_pos h4] at hab
            exact absurd hab (by simp)
          · rw [if_neg h4] at hab
            by_cases h2 : y < z
            · rw [if_pos (show x < z by omega)]
            · rw [if_neg h2] at hbc
              by_cases h3 : z < y
              · rw [if_pos h3] at hbc
                exact absurd hbc (by simp)
              · rw [if_neg h3] at hbc
                rw [if_neg (show ¬ x < z by omega), if_neg (show ¬ z < x by omega)]
                exact ih ys zs hab hbc

theorem cmpNatList_notgt_trans (a b c : List Nat)
    (h1 : cmpNatList a b ≠ .gt) (h2 : cmpNatList b c ≠ .gt) :
    cmpNatList a c ≠ .gt := by
  cases hab : cmpNatList a b with
  | gt => exact absurd hab h1
  | eq =>
    have hbe := (cmpNatList_eq_iff a b).mp hab
    subst hbe
    exact h2
  | lt =>
    cases hbc : cmpNatList b c with
    | gt => exact absurd hbc h2
    | eq =>
      have hbe := (cmpNatList_eq_iff b c).mp hbc
      subst hbe
      rw [hab]
      simp
    | lt =>
      rw [cmpNatList_lt_trans a b c hab hbc]
      simp

theorem localeCompare_swap (a b : String) :
    localeCompare b a = (localeCompare a b).swap := by
  unfold localeCompare
  rw [cmpNatList_swap (a.data.map primW) (b.data.map primW)]
  rw [cmpNatList_swap (a.data.map caseW) (b.data.map caseW)]
  cases cmpNatList (a.data.map primW) (b.data.map primW) <;> rfl

theorem localeCompare_notgt_trans {a b c : String}
    (h1 : localeCompare a b ≠ .gt) (h2 : localeCompare b c ≠ .gt) :
    localeCompare a c ≠ .gt := by
  unfold localeCompare at h1 h2 ⊢
  cases hp1 : cmpNatList (a.data.map primW) (b.data.map primW) with
  | gt =>
    rw [hp1] at h1
    exact absurd rfl h1
  | lt =>
    rw [hp1] at h1
    cases hp2 : cmpNatList (b.data.map primW) (c.data.map primW) with
    | gt =>
      rw [hp2] at h2
      exact absurd rfl h2
    | lt =>
      rw [cmpNatList_lt_trans _ _ _ hp1 hp2]
      simp
    | eq =>
      have he : b.data.map primW = c.data.map primW :=
        (cmpNatList_eq_iff _ _).mp hp2
      rw [← he, hp1]
      simp
  | eq =>
    have he : a.data.map primW = b.data.map primW :=
      (cmpNatList_eq_iff _ _).mp hp1
    rw [hp1] at h1
    dsimp only at h1
    cases hp2 : cmpNatList (b.data.map primW) (c.data.map primW) with
    | gt =>
      rw [hp2] at h2
      exact absurd rfl h2
    | lt =>
      rw [he, hp2]
      simp
    | eq =>
      rw [hp2] at h2
      dsimp only at h2
      rw [he, hp2]
      dsimp only
      exact cmpNatList_notgt_trans _ _ _ h1 h2

theorem childCompare_swap (a b : SASSObjectItem) :
    childCompare b a = -(childCompare a b) := by
  unfold childCompare
  rw [localeCompare_swap a.parent b.parent]
  cases hA : startsDashDash a.parent <;> cases hB : startsDashDash b.parent <;>
    simp only [hA, hB, Bool.not_true, Bool.not_false, Bool.true_and,
      Bool.false_and, Bool.and_true, Bool.and_false, Bool.and_self,
      Bool.true_eq_false, Bool.false_eq_true, if_true, if_false,
      reduceIte] <;>
    cases localeCompare a.parent b.parent <;> decide

theorem childCompare_trans {a b c : SASSObjectItem}
    (h1 : childCompare a b ≤ 0) (h2 : childCompare b c ≤ 0) :
    childCompare a c ≤ 0 := by
  unfold childCompare at h1 h2 ⊢
  cases hA : startsDashDash a.parent <;> cases hB : startsDashDash b.parent <;>
    cases hC : startsDashDash c.parent <;>
      simp only [hA, hB, hC, Bool.not_true, Bool.not_false, Bool.true_and,
        Bool.false_and, Bool.and_true, Bool.and_false, Bool.and_self,
        Bool.true_eq_false, Bool.false_eq_true, if_true, if_false,
        reduceIte] at h1 h2 ⊢
  all_goals try omega
  all_goals
    cases hab : localeCompare a.parent b.parent <;> rw [hab] at h1 <;>
      cases hbc : localeCompare b.parent c.parent <;> rw [hbc] at h2 <;>
        cases hac : localeCompare a.parent c.parent <;>
          (try dsimp only at h1 h2 ⊢) <;>
          first
            | omega
            | exact absurd hac (localeCompare_notgt_trans
                (by rw [hab]; simp) (by rw [hbc]; simp))

theorem childCompare_le_of_not_lt {x y : SASSObjectItem}
    (h : ¬ childCompare y x < 0) : childCompare x y ≤ 0 := by
  have hswap := childCompare_swap x y
  omega

theorem insertSorted_pairwise {l : List SASSObjectItem} (x : SASSObjectItem)
    (h : l.Pairwise (fun a b => childCompare a b ≤ 0)) :
    (insertSorted x l).Pairwise (fun a b => childCompare a b ≤ 0) := by
  induction l with
  | nil => simp [insertSorted]
  | cons y ys ih =>
    rcases List.pairwise_cons.mp h with ⟨hy, hys⟩
    simp only [insertSorted]
    by_cases hc : childCompare y x < 0
    · rw [if_pos hc]
      refine List.pairwise_cons.mpr ⟨?_, ih hys⟩
      intro z hz
      rcases List.mem_cons.mp ((insertSorted_perm x ys).mem_iff.mp hz) with
        rfl | hmem
      · exact le_of_lt hc
      · exact hy z hmem
    · rw [if_neg hc]
      refine List.pairwise_cons.mpr ⟨?_, h⟩
      intro z hz
      rcases List.mem_cons.mp hz with rfl | hmem
      · exact childCompare_le_of_not_lt hc
      · exact childCompare_trans (childCompare_le_of_not_lt hc) (hy z hmem)

theorem sortSASSObjectChildren_pairwise (cs : List SASSObjectItem) :
    (sortSASSObjectChildren cs).Pairwise
      (fun a b => childCompare a b ≤ 0) := by
  unfold sortSASSObjectChildren
  induction cs with
  | nil => simp
  | cons c cs ih =>
    simp only [List.foldr_cons]
    exact insertSorted_pairwise c ih

theorem lookupBlock_mem {m : ISASSObject} {k : String} {v : SASSObjectItem}
    (h : lookupBlock m k = some v) : (k, v) ∈ m := by
  induction m with
  | nil => exact absurd h (by simp [lookupBlock])
  | cons p ps ih =>
    simp only [lookupBlock] at h
    by_cases hp : p.1 = k
    · rw [if_pos hp] at h
      rw [Option.some.injEq] at h
      subst h
      cases p with
      | mk a b =>
        dsimp only at hp
        subst hp
        exact List.mem_cons_self _ _
    · rw [if_neg hp] at h
      exact List.mem_cons_of_mem _ (ih h)

/-- Every successful builder step is the identity, the registration of a
fresh empty block root, or an in-place update of an existing root by
`applyElemMod` with the components of the token. -/
theorem bemStep_cases {m m' : ISASSObject} {c : String}
    (h : bemStep m c = some m') :
    m' = m ∨
    (∃ b eOpt moOpt,
      splitClassNameByBEMRule c = (some b, eOpt, moOpt) ∧
      ((lookupBlock m b = none ∧ m' = m ++ [(b, ⟨b, []⟩)]) ∨
        (∃ node, lookupBlock m b = some node ∧
          m' = updateBlock m b (applyElemMod node eOpt moOpt)))) := by
  unfold bemStep at h
  rcases hsplit : splitClassNameByBEMRule c with ⟨bOpt, eOpt, moOpt⟩
  rw [hsplit] at h
  cases bOpt with
  | none =>
    dsimp only at h
    rw [Option.some.injEq] at h
    exact Or.inl h.symm
  | some b =>
    dsimp only at h
    cases eOpt with
    | none =>
      cases moOpt with
      | none =>
        cases hb : lookupBlock m b with
        | none =>
          rw [hb] at h
          simp at h
          exact Or.inr ⟨b, none, none, rfl, Or.inl ⟨hb, h.symm⟩⟩
        | some node =>
          rw [hb] at h
          simp at h
          exact Or.inl h.symm
      | some mo =>
        rw [if_neg (by simp)] at h
        cases hb : lookupBlock m b with
        | none =>
          rw [hb] at h
          exact absurd h (by simp)
        | some node =>
          rw [hb] at h
          dsimp only at h
          rw [Option.some.injEq] at h
          exact Or.inr ⟨b, none, some mo, rfl,
            Or.inr ⟨node, hb, h.symm⟩⟩
    | some e =>
      rw [if_neg (by simp)] at h
      cases hb : lookupBlock m b with
      | none =>
        rw [hb] at h
        exact absurd h (by simp)
      | some node =>
        rw [hb] at h
        dsimp only at h
        rw [Option.some.injEq] at h
        exact Or.inr ⟨b, some e, moOpt, rfl,
          Or.inr ⟨node, hb, h.symm⟩⟩

/-- Fold a step-preserved invariant over the token list. -/
theorem foldlM_bemStep_inv (P : ISASSObject → Prop)
    (hstep : ∀ m c m', P m → bemStep m c = some m' → P m') :
    ∀ (l : List String) {m m' : ISASSObject},
      P m → l.foldlM bemStep m = some m' → P m' := by
  intro l
  induction l with
  | nil =>
    intro m m' hP h
    simp only [List.foldlM_nil] at h
    cases h
    exact hP
  | cons c cs ih =>
    intro m m' hP h
    rw [List.foldlM_cons] at h
    cases hs : bemStep m c with
    | none =>
      rw [hs] at h
      exact absurd h (by simp)
    | some m1 =>
      rw [hs] at h
      exact ih (hstep m c m1 hP hs) h

theorem allDiffNames_iff (l : List String) : allDiffNames l = true ↔ l.Nodup := by
  induction l with
  | nil => simp [allDiffNames]
  | cons x xs ih =>
    simp only [allDiffNames, Bool.and_eq_true, List.all_eq_true,
      List.nodup_cons, ih]
    constructor
    · rintro ⟨h1, h2⟩
      refine ⟨?_, h2⟩
      intro hmem
      have := h1 x hmem
      simp at this
    · rintro ⟨h1, h2⟩
      refine ⟨?_, h2⟩
      intro y hy
      simp only [Bool.not_eq_eq_eq_not, Bool.not_true, beq_eq_false_iff_ne,
        ne_eq]
      intro hxy
      exact h1 (hxy ▸ hy)

theorem nodupNamesAll_iff (cs : List SASSObjectItem) :
    nodupNamesAll cs = true ↔ ∀ c ∈ cs, nodupNames c = true := by
  induction cs with
  | nil => simp [nodupNamesAll]
  | cons c cs ih =>
    simp only [nodupNamesAll, Bool.and_eq_true, ih, List.mem_cons]
    constructor
    · rintro ⟨h1, h2⟩ d hd
      rcases hd with rfl | hd
      · exact h1
      · exact h2 d hd
    · intro h
      exact ⟨h c (Or.inl rfl), fun d hd => h d (Or.inr hd)⟩

theorem nodupNames_mk (p : String) (cs : List SASSObjectItem) :
    nodupNames ⟨p, cs⟩ = true ↔
      (cs.map (fun c => c.parent)).Nodup ∧ ∀ c ∈ cs, nodupNames c = true := by
  rw [show nodupNames ⟨p, cs⟩ =
      (allDiffNames (cs.map (fun c => c.parent)) && nodupNamesAll cs) from rfl]
  rw [Bool.and_eq_true, allDiffNames_iff, nodupNamesAll_iff]

theorem hasChildNamed_false_iff {node : SASSObjectItem} {x : String} :
    hasChildNamed node x = false ↔
      x ∉ node.children.map (fun c => c.parent) := by
  constructor
  · intro h hmem
    rw [List.mem_map] at hmem
    obtain ⟨c, hc, hcx⟩ := hmem
    have htrue : hasChildNamed node x = true := by
      simp only [hasChildNamed, List.any_eq_true]
      exact ⟨c, hc, by simp [hcx]⟩
    rw [h] at htrue
    cases htrue
  · intro h
    cases hh : hasChildNamed node x with
    | false => rfl
    | true =>
      exfalso
      simp only [hasChildNamed, List.any_eq_true] at hh
      obtain ⟨c, hc, hcx⟩ := hh
      exact h (List.mem_map.mpr ⟨c, hc, by simpa using hcx⟩)

theorem nodupNames_appendChild {p : String} {cs : List SASSObjectItem}
    (x : String) (h : nodupNames ⟨p, cs⟩ = true)
    (hx : hasChildNamed ⟨p, cs⟩ x = false) :
    nodupNames ⟨p, cs ++ [(⟨x, []⟩ : SASSObjectItem)]⟩ = true := by
  rw [nodupNames_mk] at h ⊢
  obtain ⟨h1, h2⟩ := h
  have hx' : x ∉ cs.map (fun c => c.parent) := hasChildNamed_false_iff.mp hx
  constructor
  · rw [List.map_append]
    rw [List.nodup_append]
    refine ⟨h1, by simp, ?_⟩
    intro a ha hamem
    simp only [List.map_cons, List.map_nil, List.mem_singleton] at hamem
    subst hamem
    exact hx' ha
  · intro c hc
    rcases List.mem_append.mp hc with hc | hc
    · exact h2 c hc
    · rw [List.mem_singleton] at hc
      subst hc
      rfl

theorem nodupNames_ensureElementChild {node : SASSObjectItem} (e : String)
    (h : nodupNames node = true) :
    nodupNames (ensureElementChild node e) = true := by
  unfold ensureElementChild
  by_cases he : hasChildNamed node e = true
  · rw [if_pos he]
    exact h
  · rw [if_neg he]
    rcases node with ⟨p, cs⟩
    exact nodupNames_appendChild e h (by
      cases hh : hasChildNamed ⟨p, cs⟩ e
      · rfl
      · exact absurd hh he)

theorem nodupNames_ensureBlockModifier {node : SASSObjectItem} (mo : String)
    (h : nodupNames node = true) :
    nodupNames (ensureBlockModifier node mo) = true := by
  unfold ensureBlockModifier
  by_cases he : hasChildNamed node mo = true
  · rw [if_pos he]
    exact h
  · rw [if_neg he]
    rcases node with ⟨p, cs⟩
    exact nodupNames_appendChild mo h (by
      cases hh : hasChildNamed ⟨p, cs⟩ mo
      · rfl
      · exact absurd hh he)

theorem nodupNamesAll_pushUnderElement {cs : List SASSObjectItem}
    {e mo : String} (h : nodupNamesAll cs = true) :
    nodupNamesAll (pushUnderElement cs e mo) = true := by
  induction cs with
  | nil => rfl
  | cons c cs ih =>
    rw [show nodupNamesAll (c :: cs) = (nodupNames c && nodupNamesAll cs)
      from rfl, Bool.and_eq_true] at h
    obtain ⟨hc, hcs⟩ := h
    simp only [pushUnderElement]
    by_cases hce : c.parent = e
    · rw [if_pos hce]
      by_cases hcm : c.children.any (fun g => g.parent = mo) = true
      · rw [if_pos hcm]
        rw [show nodupNamesAll (c :: cs) = (nodupNames c && nodupNamesAll cs)
          from rfl, Bool.and_eq_true]
        exact ⟨hc, hcs⟩
      · rw [if_neg hcm]
        rw [show ∀ d ds, nodupNamesAll (d :: ds) =
          (nodupNames d && nodupNamesAll ds) from fun d ds => rfl,
          Bool.and_eq_true]
        constructor
        · rcases c with ⟨cp, ccs⟩
          exact nodupNames_appendChild mo hc (by
            cases hh : hasChildNamed ⟨cp, ccs⟩ mo
            · rfl
            · exact absurd hh (by simpa [hasChildNamed] using hcm))
        · exact hcs
    · rw [if_neg hce]
      rw [show ∀ d ds, nodupNamesAll (d :: ds) =
        (nodupNames d && nodupNamesAll ds) from fun d ds => rfl,
        Bool.and_eq_true]
      exact ⟨hc, ih hcs⟩

theorem nodupNames_applyElemMod {node : SASSObjectItem}
    (eOpt moOpt : Option String) (h : nodupNames node = true) :
    nodupNames (applyElemMod node eOpt moOpt) = true := by
  unfold applyElemMod
  cases eOpt with
  | none =>
    cases moOpt with
    | none => exact h
    | some mo => exact nodupNames_ensureBlockModifier mo h
  | some e =>
    have h1 := nodupNames_ensureElementChild e h
    cases moOpt with
    | none => exact h1
    | some mo =>
      dsimp only
      rcases hn : ensureElementChild node e with ⟨p1, cs1⟩
      rw [hn] at h1
      rw [nodupNames_mk] at h1 ⊢
      obtain ⟨h11, h12⟩ := h1
      constructor
      · rw [pushUnderElement_parents]
        exact h11
      · rw [← nodupNamesAll_iff]
        exact nodupNamesAll_pushUnderElement ((nodupNamesAll_iff cs1).mpr h12)

theorem bemStep_nodup {m m' : ISASSObject} {c : String}
    (hP : ∀ p ∈ m, nodupNames p.2 = true) (h : bemStep m c = some m') :
    ∀ p ∈ m', nodupNames p.2 = true := by
  rcases bemStep_cases h with rfl | ⟨b, eOpt, moOpt, hsplit, hcase⟩
  · exact hP
  · rcases hcase with ⟨hb, rfl⟩ | ⟨node, hb, rfl⟩
    · intro p hp
      rcases List.mem_append.mp hp with hp | hp
      · exact hP p hp
      · rw [List.mem_singleton] at hp
        subst hp
        rfl
    · intro p hp
      rcases mem_updateBlock hp with hp | hp
      · exact hP p hp
      · subst hp
        exact nodupNames_applyElemMod eOpt moOpt
          (hP (b, node) (lookupBlock_mem hb))

theorem sortAllBlocks_nodup {m : ISASSObject}
    (hP : ∀ p ∈ m, nodupNames p.2 = true) :
    ∀ p ∈ sortAllBlocks m, nodupNames p.2 = true := by
  intro p hp
  unfold sortAllBlocks at hp
  rcases List.mem_map.mp hp with ⟨q, hq, rfl⟩
  obtain ⟨q1, pn, cs⟩ := q
  have h := hP (q1, ⟨pn, cs⟩) hq
  rw [nodupNames_mk] at h
  obtain ⟨h1, h2⟩ := h
  rw [nodupNames_mk]
  constructor
  · exact ((sortSASSObjectChildren_perm cs).map (fun c => c.parent)).nodup_iff.mpr h1
  · intro c hc
    exact h2 c ((sortSASSObjectChildren_perm cs).mem_iff.mp hc)

/-- C6: for every input class-name list, within any single node's children of
the forest returned by extractSCSS, no two children share the same name; and
deduplication is by exact name match within the immediate parent only — the
same modifier name "--m" occurring under the two different elements "__e1"
and "__e2" yields two distinct nodes. -/
theorem extractSCSS_children_nodup :
    (∀ (cs : List String) (f : ISASSObject), extractSCSS cs = some f →
      ∀ p ∈ f, nodupNames p.2 = true) ∧
    extractSCSS ["b", "b__e1--m", "b__e2--m"] =
      some [("b", ⟨"b", [⟨"__e1", [⟨"--m", []⟩]⟩,
        ⟨"__e2", [⟨"--m", []⟩]⟩]⟩)] := by
  constructor
  · intro cs f hf
    unfold extractSCSS at hf
    cases hfold : cs.foldlM bemStep [] with
    | none =>
      rw [hfold] at hf
      exact absurd hf (by simp)
    | some m =>
      rw [hfold] at hf
      simp only [Option.map_some', Option.some.injEq] at hf
      subst hf
      have hP := foldlM_bemStep_inv (fun m => ∀ p ∈ m, nodupNames p.2 = true)
        (fun m c m' hP h => bemStep_nodup hP h) cs (by simp) hfold
      exact sortAllBlocks_nodup hP
  · rfl

/-- C6 witness: the invariant instantiated on a concrete run. -/
theorem extractSCSS_children_nodup_witness :
    nodupNames (⟨"b", [⟨"__e1", [⟨"--m", []⟩]⟩,
      ⟨"__e2", [⟨"--m", []⟩]⟩]⟩ : SASSObjectItem) = true :=
  extractSCSS_children_nodup.1 ["b", "b__e1--m", "b__e2--m"]
    [("b", ⟨"b", [⟨"__e1", [⟨"--m", []⟩]⟩, ⟨"__e2", [⟨"--m", []⟩]⟩]⟩)] rfl
    ("b", ⟨"b", [⟨"__e1", [⟨"--m", []⟩]⟩, ⟨"__e2", [⟨"--m", []⟩]⟩]⟩)
    (List.mem_singleton.mpr rfl)

theorem takeDashRunsF_chars : ∀ (fuel : Nat) (s : List Char) (x : Char),
    x ∈ (takeDashRunsF fuel s).1 → x = '-' ∨ isAlnum x = true := by
  intro fuel
  induction fuel with
  | zero =>
    intro s x hx
    simp [takeDashRunsF] at hx
  | succ fuel ih =>
    intro s x hx
    cases s with
    | nil => simp [takeDashRunsF] at hx
    | cons c rest =>
      simp only [takeDashRunsF] at hx
      by_cases hc : c = '-'
      · rw [if_pos hc] at hx
        by_cases ht : (rest.takeWhile isAlnum).isEmpty = true
        · rw [if_pos ht] at hx
          simp at hx
        · rw [if_neg ht] at hx
          dsimp only at hx
          rcases List.mem_cons.mp hx with rfl | hx
          · exact Or.inl hc
          · rcases List.mem_append.mp hx with hx | hx
            · exact Or.inr (List.mem_takeWhile_imp hx)
            · exact ih _ x hx
      · rw [if_neg hc] at hx
        simp at hx

theorem blockWord_shape {s : List Char} {p : List Char × List Char}
    (h : blockWord s = some p) :
    (∃ ch t, p.1 = ch :: t ∧ isAlnum ch = true) ∧
      ∀ x ∈ p.1, x = '-' ∨ isAlnum x = true := by
  unfold blockWord at h
  by_cases ht : (s.takeWhile isAlnum).isEmpty = true
  · rw [if_pos ht] at h
    cases h
  · rw [if_neg ht] at h
    dsimp only at h
    rw [Option.some.injEq] at h
    subst h
    dsimp only
    constructor
    · cases htw : s.takeWhile isAlnum with
      | nil =>
        rw [htw] at ht
        simp at ht
      | cons ch t =>
        refine ⟨ch, t ++ (takeDashRuns (s.dropWhile isAlnum)).1, rfl, ?_⟩
        have hmem : ch ∈ s.takeWhile isAlnum := by
          rw [htw]
          exact List.mem_cons_self _ _
        exact List.mem_takeWhile_imp hmem
    · intro x hx
      rcases List.mem_append.mp hx with hx | hx
      · exact Or.inr (List.mem_takeWhile_imp hx)
      · exact takeDashRunsF_chars _ _ x hx

theorem findElementF_shape : ∀ (fuel : Nat) (s w : List Char),
    findElementF fuel s = some w →
    ∃ t, w = '_' :: '_' :: t ∧ ∀ x ∈ t, x = '-' ∨ isAlnum x = true := by
  intro fuel
  induction fuel with
  | zero =>
    intro s w h
    exact absurd h (by simp [findElementF])
  | succ fuel ih =>
    intro s w h
    cases s with
    | nil => exact absurd h (by simp [findElementF])
    | cons c rest =>
      simp only [findElementF] at h
      by_cases hc : c = '_'
      · rw [if_pos hc] at h
        cases rest with
        | nil => cases h
        | cons c2 rest2 =>
          dsimp only at h
          by_cases hc2 : c2 = '_'
          · rw [if_pos hc2] at h
            cases hbw : blockWord rest2 with
            | some p =>
              rw [hbw] at h
              dsimp only at h
              rw [Option.some.injEq] at h
              subst h
              obtain ⟨_, hchars⟩ := blockWord_shape hbw
              exact ⟨p.1, rfl, hchars⟩
            | none =>
              rw [hbw] at h
              exact ih _ w h
          · rw [if_neg hc2] at h
            exact ih _ w h
      · rw [if_neg hc] at h
        exact ih _ w h

theorem findModifierF_shape : ∀ (fuel : Nat) (s w : List Char),
    findModifierF fuel s = some w →
    ∃ t, w = '-' :: '-' :: t ∧ ∀ x ∈ t, x = '-' ∨ isAlnum x = true := by
  intro fuel
  induction fuel with
  | zero =>
    intro s w h
    exact absurd h (by simp [findModifierF])
  | succ fuel ih =>
    intro s w h
    cases s with
    | nil => exact absurd h (by simp [findModifierF])
    | cons c rest =>
      simp only [findModifierF] at h
      by_cases hc : c = '-'
      · rw [if_pos hc] at h
        cases rest with
        | nil => cases h
        | cons c2 rest2 =>
          dsimp only at h
          by_cases hc2 : c2 = '-'
          · rw [if_pos hc2] at h
            cases hbw : blockWord rest2 with
            | some p =>
              rw [hbw] at h
              dsimp only at h
              by_cases hp2 : p.2 = []
              · rw [if_pos hp2] at h
                rw [Option.some.injEq] at h
                subst h
                obtain ⟨_, hchars⟩ := blockWord_shape hbw
                exact ⟨p.1, rfl, hchars⟩
              · rw [if_neg hp2] at h
                exact ih _ w h
            | none =>
              rw [hbw] at h
              exact ih _ w h
          · rw [if_neg hc2] at h
            exact ih _ w h
      · rw [if_neg hc] at h
        exact ih _ w h

theorem goodChar_of_dash_or_alnum {x : Char}
    (h : x = '-' ∨ isAlnum x = true) : goodChar x = true := by
  rcases h with rfl | h
  · decide
  · simp [goodChar, h]

/-- Shapes of the three captured components: the block never starts with
"--" (it starts with an alphanumeric character), the element starts with
"__", and all three use only name characters. -/
theorem split_shapes {c : String} {b : String} {eOpt moOpt : Option String}
    (h : splitClassNameByBEMRule c = (some b, eOpt, moOpt)) :
    (startsDashDash b = false ∧ ∀ x ∈ b.data, goodChar x = true) ∧
    (∀ e, eOpt = some e →
      startsDashDash e = false ∧ ∀ x ∈ e.data, goodChar x = true) ∧
    (∀ mo, moOpt = some mo → ∀ x ∈ mo.data, goodChar x = true) := by
  unfold splitClassNameByBEMRule at h
  cases hbw : blockWord c.data with
  | none =>
    rw [hbw] at h
    cases h
  | some p =>
    rw [hbw] at h
    dsimp only at h
    rw [Prod.mk.injEq, Prod.mk.injEq] at h
    obtain ⟨hb, he, hm⟩ := h
    rw [Option.some.injEq] at hb
    refine ⟨?_, ?_, ?_⟩
    · obtain ⟨⟨ch, t, hp1, hal⟩, hchars⟩ := blockWord_shape hbw
      subst hb
      constructor
      · unfold startsDashDash
        rw [show (String.mk p.1).data = p.1 from rfl, hp1]
        cases t with
        | nil => rfl
        | cons c2 t2 =>
          have hchd : ¬ ch = '-' := by
            intro hh
            rw [hh] at hal
            exact absurd hal (by decide)
          simp [hchd]
      · intro x hx
        exact goodChar_of_dash_or_alnum
          (hchars x (by rwa [show (String.mk p.1).data = p.1 from rfl] at hx))
    · intro e hee
      rw [← he] at hee
      rw [Option.map_eq_some'] at hee
      obtain ⟨w, hw, hew⟩ := hee
      obtain ⟨t, hwt, htchars⟩ := findElementF_shape _ _ _ hw
      subst hew
      subst hwt
      constructor
      · rfl
      · intro x hx
        rw [show (String.mk ('_' :: '_' :: t)).data = '_' :: '_' :: t
          from rfl] at hx
        rcases List.mem_cons.mp hx with rfl | hx
        · decide
        · rcases List.mem_cons.mp hx with rfl | hx
          · decide
          · exact goodChar_of_dash_or_alnum (htchars x hx)
    · intro mo hmo
      rw [← hm] at hmo
      rw [Option.map_eq_some'] at hmo
      obtain ⟨w, hw, hmw⟩ := hmo
      obtain ⟨t, hwt, htchars⟩ := findModifierF_shape _ _ _ hw
      subst hmw
      subst hwt
      intro x hx
      rw [show (String.mk ('-' :: '-' :: t)).data = '-' :: '-' :: t
        from rfl] at hx
      rcases List.mem_cons.mp hx with rfl | hx
      · decide
      · rcases List.mem_cons.mp hx with rfl | hx
        · decide
        · exact goodChar_of_dash_or_alnum (htchars x hx)

theorem applyElemMod_parent (node : SASSObjectItem)
    (eOpt moOpt : Option String) :
    (applyElemMod node eOpt moOpt).parent = node.parent := by
  unfold applyElemMod ensureElementChild ensureBlockModifier
  cases eOpt with
  | none =>
    cases moOpt with
    | none => rfl
    | some mo =>
      dsimp only
      split <;> rfl
  | some e =>
    cases moOpt with
    | none =>
      dsimp only
      split <;> rfl
    | some mo =>
      dsimp only
      split <;> rfl

theorem mem_pushUnderElement {cs : List SASSObjectItem} {e mo : String}
    {d : SASSObjectItem} (h : d ∈ pushUnderElement cs e mo) :
    d ∈ cs ∨ ∃ c, c ∈ cs ∧ c.parent = e ∧
      d = ⟨c.parent, c.children ++ [⟨mo, []⟩]⟩ := by
  induction cs with
  | nil => simp [pushUnderElement] at h
  | cons c cs ih =>
    simp only [pushUnderElement] at h
    by_cases hce : c.parent = e
    · rw [if_pos hce] at h
      by_cases hcm : (c.children.any fun g => g.parent = mo) = true
      · rw [if_pos hcm] at h
        exact Or.inl h
      · rw [if_neg hcm] at h
        rcases List.mem_cons.mp h with rfl | h
        · exact Or.inr ⟨c, List.mem_cons_self _ _, hce, rfl⟩
        · exact Or.inl (List.mem_cons_of_mem _ h)
    · rw [if_neg hce] at h
      rcases List.mem_cons.mp h with rfl | h
      · exact Or.inl (List.mem_cons_self _ _)
      · rcases ih h with h | ⟨c2, hc2, he2, hd⟩
        · exact Or.inl (List.mem_cons_of_mem _ h)
        · exact Or.inr ⟨c2, List.mem_cons_of_mem _ hc2, he2, hd⟩

theorem rootOk_applyElemMod {node : SASSObjectItem} {eOpt moOpt : Option String}
    (hdepth : ∀ c ∈ node.children, ∀ g ∈ c.children, g.children = [])
    (hmodleaf : ∀ c ∈ node.children,
      startsDashDash c.parent = true → c.children = [])
    (helem : ∀ e, eOpt = some e → startsDashDash e = false) :
    (∀ c ∈ (applyElemMod node eOpt moOpt).children,
      ∀ g ∈ c.children, g.children = []) ∧
    (∀ c ∈ (applyElemMod node eOpt moOpt).children,
      startsDashDash c.parent = true → c.children = []) := by
  have ensure_case : ∀ (x : String),
      (∀ c ∈ node.children ++ [(⟨x, []⟩ : SASSObjectItem)],
        ∀ g ∈ c.children, g.children = []) ∧
      (∀ c ∈ node.children ++ [(⟨x, []⟩ : SASSObjectItem)],
        startsDashDash c.parent = true → c.children = []) := by
    intro x
    constructor
    · intro c hc g hg
      rcases List.mem_append.mp hc with hc | hc
      · exact hdepth c hc g hg
      · rw [List.mem_singleton] at hc
        subst hc
        simp at hg
    · intro c hc hsd
      rcases List.mem_append.mp hc with hc | hc
      · exact hmodleaf c hc hsd
      · rw [List.mem_singleton] at hc
        subst hc
        rfl
  unfold applyElemMod ensureElementChild ensureBlockModifier
  cases eOpt with
  | none =>
    cases moOpt with
    | none => exact ⟨hdepth, hmodleaf⟩
    | some mo =>
      dsimp only
      by_cases hg : hasChildNamed node mo = true
      · rw [if_pos hg]
        exact ⟨hdepth, hmodleaf⟩
      · rw [if_neg hg]
        exact ensure_case mo
  | some e =>
    have he : startsDashDash e = false := helem e rfl
    cases moOpt with
    | none =>
      dsimp only
      by_cases hg : hasChildNamed node e = true
      · rw [if_pos hg]
        exact ⟨hdepth, hmodleaf⟩
      · rw [if_neg hg]
        exact ensure_case e
    | some mo =>
      dsimp only
      have base :
          (∀ c ∈ (if hasChildNamed node e = true then node
            else ⟨node.parent, node.children ++ [⟨e, []⟩]⟩).children,
            ∀ g ∈ c.children, g.children = []) ∧
          (∀ c ∈ (if hasChildNamed node e = true then node
            else ⟨node.parent, node.children ++ [⟨e, []⟩]⟩).children,
            startsDashDash c.parent = true → c.children = []) := by
        by_cases hg : hasChildNamed node e = true
        · rw [if_pos hg]
          exact ⟨hdepth, hmodleaf⟩
        · rw [if_neg hg]
          exact ensure_case e
      obtain ⟨bd, bm⟩ := base
      constructor
      · intro c hc g hg
        rcases mem_pushUnderElement hc with hc | ⟨c2, hc2, he2, rfl⟩
        · exact bd c hc g hg
        · rcases List.mem_append.mp hg with hg | hg
          · exact bd c2 hc2 g hg
          · rw [List.mem_singleton] at hg
            subst hg
            rfl
      · intro c hc hsd
        rcases mem_pushUnderElement hc with hc | ⟨c2, hc2, he2, rfl⟩
        · exact bm c hc hsd
        · exfalso
          dsimp only at hsd
          rw [he2, he] at hsd
          cases hsd

theorem bemStep_rootOk {m m' : ISASSObject} {c : String}
    (hP : ∀ p ∈ m, startsDashDash p.2.parent = false ∧
      (∀ d ∈ p.2.children, ∀ g ∈ d.children, g.children = []) ∧
      (∀ d ∈ p.2.children, startsDashDash d.parent = true → d.children = []))
    (h : bemStep m c = some m') :
    ∀ p ∈ m', startsDashDash p.2.parent = false ∧
      (∀ d ∈ p.2.children, ∀ g ∈ d.children, g.children = []) ∧
      (∀ d ∈ p.2.children, startsDashDash d.parent = true → d.children = []) := by
  rcases bemStep_cases h with rfl | ⟨b, eOpt, moOpt, hsplit, hcase⟩
  · exact hP
  · obtain ⟨⟨hbdd, _⟩, helem, _⟩ := split_shapes hsplit
    rcases hcase with ⟨hb, rfl⟩ | ⟨node, hb, rfl⟩
    · intro p hp
      rcases List.mem_append.mp hp with hp | hp
      · exact hP p hp
      · rw [List.mem_singleton] at hp
        subst hp
        refine ⟨hbdd, ?_, ?_⟩
        · intro d hd
          simp at hd
        · intro d hd
          simp at hd
    · intro p hp
      rcases mem_updateBlock hp with hp | hp
      · exact hP p hp
      · subst hp
        obtain ⟨hroot, hdepth, hmodleaf⟩ := hP (b, node) (lookupBlock_mem hb)
        obtain ⟨hd2, hm2⟩ := rootOk_applyElemMod hdepth hmodleaf
          (fun e hee => (helem e hee).1)
        refine ⟨?_, hd2, hm2⟩
        rw [applyElemMod_parent]
        exact hroot

theorem sortAllBlocks_rootOk {m : ISASSObject}
    (hP : ∀ p ∈ m, startsDashDash p.2.parent = false ∧
      (∀ d ∈ p.2.children, ∀ g ∈ d.children, g.children = []) ∧
      (∀ d ∈ p.2.children, startsDashDash d.parent = true → d.children = [])) :
    ∀ p ∈ sortAllBlocks m, startsDashDash p.2.parent = false ∧
      (∀ d ∈ p.2.children, ∀ g ∈ d.children, g.children = []) ∧
      (∀ d ∈ p.2.children, startsDashDash d.parent = true → d.children = []) := by
  intro p hp
  unfold sortAllBlocks at hp
  rcases List.mem_map.mp hp with ⟨q, hq, rfl⟩
  obtain ⟨q1, pn, cs⟩ := q
  obtain ⟨h0, h1, h2⟩ := hP (q1, ⟨pn, cs⟩) hq
  refine ⟨h0, ?_, ?_⟩
  · intro d hd
    exact h1 d ((sortSASSObjectChildren_perm cs).mem_iff.mp hd)
  · intro d hd
    exact h2 d ((sortSASSObjectChildren_perm cs).mem_iff.mp hd)

theorem heightAll_le {cs : List SASSObjectItem} {k : Nat}
    (h : ∀ c ∈ cs, heightI c ≤ k) : heightAll cs ≤ k := by
  induction cs with
  | nil =>
    rw [show heightAll [] = 0 from rfl]
    omega
  | cons c cs ih =>
    rw [show heightAll (c :: cs) = max (heightI c) (heightAll cs) from rfl]
    exact max_le (h c (List.mem_cons_self _ _))
      (ih (fun d hd => h d (List.mem_cons_of_mem _ hd)))

theorem modifierLeafAll_iff (cs : List SASSObjectItem) :
    modifierLeafAll cs = true ↔ ∀ c ∈ cs, modifierLeaf c = true := by
  induction cs with
  | nil => simp [modifierLeafAll]
  | cons c cs ih =>
    rw [show modifierLeafAll (c :: cs) =
      (modifierLeaf c && modifierLeafAll cs) from rfl, Bool.and_eq_true, ih]
    constructor
    · rintro ⟨h1, h2⟩ d hd
      rcases List.mem_cons.mp hd with rfl | hd
      · exact h1
      · exact h2 d hd
    · intro h
      exact ⟨h c (List.mem_cons_self _ _),
        fun d hd => h d (List.mem_cons_of_mem _ hd)⟩

theorem rootOk_implies {p : String} {cs : List SASSObjectItem}
    (h0 : startsDashDash p = false)
    (h1 : ∀ c ∈ cs, ∀ g ∈ c.children, g.children = [])
    (h2 : ∀ c ∈ cs, startsDashDash c.parent = true → c.children = []) :
    heightI ⟨p, cs⟩ ≤ 3 ∧ modifierLeaf ⟨p, cs⟩ = true := by
  constructor
  · rw [show heightI ⟨p, cs⟩ = 1 + heightAll cs from rfl]
    have hh : heightAll cs ≤ 2 := by
      apply heightAll_le
      intro c hc
      rcases c with ⟨cp, ccs⟩
      rw [show heightI ⟨cp, ccs⟩ = 1 + heightAll ccs from rfl]
      have hh2 : heightAll ccs ≤ 1 := by
        apply heightAll_le
        intro g hg
        rcases g with ⟨gp, gcs⟩
        have hge : gcs = [] := h1 ⟨cp, ccs⟩ hc ⟨gp, gcs⟩ hg
        subst hge
        rw [show heightI ⟨gp, []⟩ = 1 + heightAll [] from rfl,
          show heightAll [] = 0 from rfl]
      omega
    omega
  · rw [show modifierLeaf ⟨p, cs⟩ =
      ((!startsDashDash p || cs.isEmpty) && modifierLeafAll cs) from rfl,
      Bool.and_eq_true]
    constructor
    · rw [h0]
      rfl
    · rw [modifierLeafAll_iff]
      intro c hc
      rcases c with ⟨cp, ccs⟩
      rw [show modifierLeaf ⟨cp, ccs⟩ =
        ((!startsDashDash cp || ccs.isEmpty) && modifierLeafAll ccs) from rfl,
        Bool.and_eq_true]
      constructor
      · cases hsd : startsDashDash cp with
        | false => rfl
        | true =>
          have hcc : ccs = [] := h2 ⟨cp, ccs⟩ hc hsd
          subst hcc
          rfl
      · rw [modifierLeafAll_iff]
        intro g hg
        rcases g with ⟨gp, gcs⟩
        have hge : gcs = [] := h1 ⟨cp, ccs⟩ hc ⟨gp, gcs⟩ hg
        subst hge
        rw [show modifierLeaf ⟨gp, []⟩ =
          ((!startsDashDash gp || List.isEmpty []) && modifierLeafAll [])
          from rfl,
          show modifierLeafAll ([] : List SASSObjectItem) = true from rfl]
        simp

/-- C10: every forest extractSCSS returns has height at most three, and
nodes whose name starts with the modifier marker "--" (modifier children of
an element node included) always have an empty children list: the element
lookup compares against names beginning with "__" while modifier node names
begin with "--", so a modifier node is never selected as a parent. -/
theorem extractSCSS_height_le_three :
    ∀ (cs : List String) (f : ISASSObject), extractSCSS cs = some f →
      ∀ p ∈ f, heightI p.2 ≤ 3 ∧ modifierLeaf p.2 = true := by
  intro cs f hf
  unfold extractSCSS at hf
  cases hfold : cs.foldlM bemStep [] with
  | none =>
    rw [hfold] at hf
    exact absurd hf (by simp)
  | some m =>
    rw [hfold] at hf
    simp only [Option.map_some', Option.some.injEq] at hf
    subst hf
    have hP := foldlM_bemStep_inv
      (fun m => ∀ p ∈ m, startsDashDash p.2.parent = false ∧
        (∀ d ∈ p.2.children, ∀ g ∈ d.children, g.children = []) ∧
        (∀ d ∈ p.2.children, startsDashDash d.parent = true →
          d.children = []))
      (fun m c m' hP h => bemStep_rootOk hP h) cs (by simp) hfold
    have hQ := sortAllBlocks_rootOk hP
    intro p hp
    obtain ⟨h0, h1, h2⟩ := hQ p hp
    rcases hq2 : p.2 with ⟨pn, pcs⟩
    rw [hq2] at h0 h1 h2
    exact rootOk_implies h0 h1 h2

/-- C10 witness: the bound instantiated on the spec round-trip scenario. -/
theorem extractSCSS_height_le_three_witness :
    heightI (⟨"app", [⟨"__header", [⟨"--mobile", []⟩]⟩,
      ⟨"__heading", [⟨"--h1", []⟩]⟩]⟩ : SASSObjectItem) ≤ 3 ∧
    modifierLeaf (⟨"app", [⟨"__header", [⟨"--mobile", []⟩]⟩,
      ⟨"__heading", [⟨"--h1", []⟩]⟩]⟩ : SASSObjectItem) = true :=
  extractSCSS_height_le_three
    ["app", "app__header", "app__header--mobile", "app__heading--h1"]
    [("app", ⟨"app", [⟨"__header", [⟨"--mobile", []⟩]⟩,
      ⟨"__heading", [⟨"--h1", []⟩]⟩]⟩)] rfl
    ("app", ⟨"app", [⟨"__header", [⟨"--mobile", []⟩]⟩,
      ⟨"__heading", [⟨"--h1", []⟩]⟩]⟩) (List.mem_singleton.mpr rfl)

theorem braceScan_cons_open (cs : List Char) (d : Nat) :
    braceScan ('\x7b' :: cs) d = braceScan cs (d + 1) :=
  rfl

theorem braceScan_cons_close (cs : List Char) (d : Nat) :
    braceScan ('\x7d' :: cs) d =
      match d with
      | 0 => none
      | e + 1 => braceScan cs e :=
  rfl

theorem braceScan_cons_other {c : Char} (h1 : c ≠ '\x7b') (h2 : c ≠ '\x7d')
    (cs : List Char) (d : Nat) : braceScan (c :: cs) d = braceScan cs d := by
  simp only [braceScan]
  rw [if_neg h1, if_neg h2]

theorem braceScan_append (a : List Char) : ∀ (b : List Char) (d : Nat),
    braceScan (a ++ b) d = (braceScan a d).bind (fun e => braceScan b e) := by
  induction a with
  | nil =>
    intro b d
    rfl
  | cons c cs ih =>
    intro b d
    by_cases h1 : c = '\x7b'
    · subst h1
      rw [List.cons_append, braceScan_cons_open, braceScan_cons_open, ih]
    · by_cases h2 : c = '\x7d'
      · subst h2
        rw [List.cons_append, braceScan_cons_close, braceScan_cons_close]
        cases d with
        | zero => rfl
        | succ e => exact ih b e
      · rw [List.cons_append, braceScan_cons_other h1 h2,
          braceScan_cons_other h1 h2, ih]

theorem braceScan_str_append {x y : String} {d e f : Nat}
    (hx : braceScan x.data d = some e) (hy : braceScan y.data e = some f) :
    braceScan (x ++ y).data d = some f := by
  rw [String.data_append, braceScan_append, hx]
  exact hy

theorem braceScan_no_brace {s : List Char}
    (h : ∀ x ∈ s, x ≠ '\x7b' ∧ x ≠ '\x7d') :
    ∀ d, braceScan s d = some d := by
  induction s with
  | nil =>
    intro d
    rfl
  | cons c cs ih =>
    intro d
    obtain ⟨h1, h2⟩ := h c (List.mem_cons_self _ _)
    simp only [braceScan]
    rw [if_neg h1, if_neg h2]
    exact ih (fun x hx => h x (List.mem_cons_of_mem _ hx)) d

theorem goodChar_not_brace {x : Char} (h : goodChar x = true) :
    x ≠ '\x7b' ∧ x ≠ '\x7d' := by
  refine ⟨fun hh => ?_, fun hh => ?_⟩ <;>
    (subst hh; exact absurd h (by decide))

theorem braceScan_tabIndent (n : Nat) (d : Nat) :
    braceScan (tabIndent n).data d = some d := by
  apply braceScan_no_brace
  intro x hx
  rw [show (tabIndent n).data = List.replicate n '\t' from rfl] at hx
  rw [List.eq_of_mem_replicate hx]
  exact ⟨by decide, by decide⟩

theorem braceScan_selector {sel p : String}
    (hp : p.data.all goodChar = true) (d : Nat) :
    braceScan (if sel = "" then "." ++ p else "&" ++ p).data d = some d := by
  have key : ∀ (c : Char), c ≠ '\x7b' → c ≠ '\x7d' →
      braceScan (String.mk [c] ++ p).data d = some d := by
    intro c h1 h2
    apply braceScan_no_brace
    intro x hx
    rw [String.data_append] at hx
    rcases List.mem_append.mp hx with hx | hx
    · rw [List.mem_singleton.mp hx]
      exact ⟨h1, h2⟩
    · exact goodChar_not_brace (List.all_eq_true.mp hp x hx)
  by_cases hsel : sel = ""
  · rw [if_pos hsel]
    exact key '.' (by decide) (by decide)
  · rw [if_neg hsel]
    exact key '&' (by decide) (by decide)

theorem braceScan_tail (lvl : Nat) (d : Nat) :
    braceScan (if lvl = 0 then "\n" else "").data d = some d := by
  by_cases h0 : lvl = 0
  · rw [if_pos h0]
    rfl
  · rw [if_neg h0]
    rfl

mutual

theorem braceScan_parseToSCSS :
    ∀ (n : SASSObjectItem) (sel : String) (lvl : Nat) (d : Nat),
    goodNames n = true → braceScan (parseToSCSS n sel lvl).data d = some d
  | ⟨p, cs⟩, sel, lvl, d, h => by
    rw [show goodNames ⟨p, cs⟩ = (p.data.all goodChar && goodNamesAll cs)
      from rfl, Bool.and_eq_true] at h
    obtain ⟨hp, hcs⟩ := h
    exact braceScan_str_append (braceScan_str_append (braceScan_str_append
      (braceScan_str_append (braceScan_str_append (braceScan_str_append
        (braceScan_str_append (braceScan_str_append
          (braceScan_tabIndent lvl d)
          (braceScan_selector hp d))
          (rfl : braceScan " \x7b\n".data d = some (d + 1)))
          (braceScan_tabIndent lvl (d + 1)))
          (rfl : braceScan "  \n".data (d + 1) = some (d + 1)))
          (braceScan_parseChildren cs
            (if sel = "" then "." ++ p else "&" ++ p) (lvl + 1) (d + 1) hcs))
          (braceScan_tabIndent lvl (d + 1)))
          (rfl : braceScan "\x7d\n".data (d + 1) = some d))
          (braceScan_tail lvl d)

theorem braceScan_parseChildren :
    ∀ (cs : List SASSObjectItem) (sel : String) (lvl : Nat) (d : Nat),
    goodNamesAll cs = true →
    braceScan (parseChildren cs sel lvl).data d = some d
  | [], _, _, _, _ => rfl
  | c :: cs, sel, lvl, d, h => by
    rw [show goodNamesAll (c :: cs) = (goodNames c && goodNamesAll cs)
      from rfl, Bool.and_eq_true] at h
    obtain ⟨hc, hcs⟩ := h
    exact braceScan_str_append (braceScan_parseToSCSS c sel lvl d hc)
      (braceScan_parseChildren cs sel lvl d hcs)

end

theorem braceScan_count {s : List Char} : ∀ {d e : Nat},
    braceScan s d = some e →
    d + s.count '\x7b' = e + s.count '\x7d' := by
  induction s with
  | nil =>
    intro d e h
    rw [show braceScan [] d = some d from rfl, Option.some.injEq] at h
    subst h
    simp
  | cons c cs ih =>
    intro d e h
    simp only [braceScan] at h
    by_cases h1 : c = '\x7b'
    · rw [if_pos h1] at h
      have := ih h
      subst h1
      simp [List.count_cons]
      omega
    · rw [if_neg h1] at h
      by_cases h2 : c = '\x7d'
      · rw [if_pos h2] at h
        cases d with
        | zero => exact absurd h (by simp)
        | succ d0 =>
          have := ih h
          subst h2
          simp [List.count_cons]
          omega
      · rw [if_neg h2] at h
        have := ih h
        have e1 : (c == '\x7b') = false := by
          cases heq : c == '\x7b'
          · rfl
          · exact absurd (by simpa using heq) h1
        have e2 : (c == '\x7d') = false := by
          cases heq : c == '\x7d'
          · rfl
          · exact absurd (by simpa using heq) h2
        simp [List.count_cons, e1, e2]
        omega

theorem goodNamesAll_iff (cs : List SASSObjectItem) :
    goodNamesAll cs = true ↔ ∀ c ∈ cs, goodNames c = true := by
  induction cs with
  | nil => simp [goodNamesAll]
  | cons c cs ih =>
    rw [show goodNamesAll (c :: cs) = (goodNames c && goodNamesAll cs)
      from rfl, Bool.and_eq_true, ih]
    constructor
    · rintro ⟨h1, h2⟩ d hd
      rcases List.mem_cons.mp hd with rfl | hd
      · exact h1
      · exact h2 d hd
    · intro h
      exact ⟨h c (List.mem_cons_self _ _),
        fun d hd => h d (List.mem_cons_of_mem _ hd)⟩

theorem goodNames_mk (p : String) (cs : List SASSObjectItem) :
    goodNames ⟨p, cs⟩ = true ↔
      p.data.all goodChar = true ∧ ∀ c ∈ cs, goodNames c = true := by
  rw [show goodNames ⟨p, cs⟩ = (p.data.all goodChar && goodNamesAll cs)
    from rfl, Bool.and_eq_true, goodNamesAll_iff]

theorem goodNames_appendChild {p : String} {cs : List SASSObjectItem}
    {x : String} (h : goodNames ⟨p, cs⟩ = true)
    (hx : x.data.all goodChar = true) :
    goodNames ⟨p, cs ++ [(⟨x, []⟩ : SASSObjectItem)]⟩ = true := by
  rw [goodNames_mk] at h ⊢
  obtain ⟨h1, h2⟩ := h
  refine ⟨h1, ?_⟩
  intro c hc
  rcases List.mem_append.mp hc with hc | hc
  · exact h2 c hc
  · rw [List.mem_singleton] at hc
    subst hc
    rw [goodNames_mk]
    exact ⟨hx, by simp⟩

theorem goodNamesAll_pushUnderElement {cs : List SASSObjectItem}
    {e mo : String} (hmo : mo.data.all goodChar = true)
    (h : goodNamesAll cs = true) :
    goodNamesAll (pushUnderElement cs e mo) = true := by
  induction cs with
  | nil => rfl
  | cons c cs ih =>
    rw [show goodNamesAll (c :: cs) = (goodNames c && goodNamesAll cs)
      from rfl, Bool.and_eq_true] at h
    obtain ⟨hc, hcs⟩ := h
    simp only [pushUnderElement]
    by_cases hce : c.parent = e
    · rw [if_pos hce]
      by_cases hcm : (c.children.any fun g => g.parent = mo) = true
      · rw [if_pos hcm]
        rw [show goodNamesAll (c :: cs) = (goodNames c && goodNamesAll cs)
          from rfl, Bool.and_eq_true]
        exact ⟨hc, hcs⟩
      · rw [if_neg hcm]
        rw [show ∀ d ds, goodNamesAll (d :: ds) =
          (goodNames d && goodNamesAll ds) from fun d ds => rfl,
          Bool.and_eq_true]
        constructor
        · rcases c with ⟨cp, ccs⟩
          exact goodNames_appendChild hc hmo
        · exact hcs
    · rw [if_neg hce]
      rw [show ∀ d ds, goodNamesAll (d :: ds) =
        (goodNames d && goodNamesAll ds) from fun d ds => rfl,
        Bool.and_eq_true]
      exact ⟨hc, ih hcs⟩

theorem goodNames_ensureElementChild {node : SASSObjectItem} (e : String)
    (h : goodNames node = true) (hegood : e.data.all goodChar = true) :
    goodNames (ensureElementChild node e) = true := by
  unfold ensureElementChild
  by_cases hg : hasChildNamed node e = true
  · rw [if_pos hg]
    exact h
  · rw [if_neg hg]
    rcases node with ⟨p, cs⟩
    exact goodNames_appendChild h hegood

theorem goodNames_ensureBlockModifier {node : SASSObjectItem} (mo : String)
    (h : goodNames node = true) (hmogood : mo.data.all goodChar = true) :
    goodNames (ensureBlockModifier node mo) = true := by
  unfold ensureBlockModifier
  by_cases hg : hasChildNamed node mo = true
  · rw [if_pos hg]
    exact h
  · rw [if_neg hg]
    rcases node with ⟨p, cs⟩
    exact goodNames_appendChild h hmogood

theorem goodNames_applyElemMod {node : SASSObjectItem}
    {eOpt moOpt : Option String} (h : goodNames node = true)
    (he : ∀ e, eOpt = some e → e.data.all goodChar = true)
    (hmo : ∀ mo, moOpt = some mo → mo.data.all goodChar = true) :
    goodNames (applyElemMod node eOpt moOpt) = true := by
  unfold applyElemMod
  cases eOpt with
  | none =>
    cases moOpt with
    | none => exact h
    | some mo => exact goodNames_ensureBlockModifier mo h (hmo mo rfl)
  | some e =>
    have h1 := goodNames_ensureElementChild e h (he e rfl)
    cases moOpt with
    | none => exact h1
    | some mo =>
      dsimp only
      rcases hn : ensureElementChild node e with ⟨p1, cs1⟩
      rw [hn] at h1
      rw [goodNames_mk] at h1 ⊢
      obtain ⟨h11, h12⟩ := h1
      refine ⟨h11, ?_⟩
      rw [← goodNamesAll_iff]
      exact goodNamesAll_pushUnderElement (hmo mo rfl)
        ((goodNamesAll_iff cs1).mpr h12)

theorem bemStep_goodNames {m m' : ISASSObject} {c : String}
    (hP : ∀ p ∈ m, goodNames p.2 = true) (h : bemStep m c = some m') :
    ∀ p ∈ m', goodNames p.2 = true := by
  rcases bemStep_cases h with rfl | ⟨b, eOpt, moOpt, hsplit, hcase⟩
  · exact hP
  · obtain ⟨⟨_, hbgood⟩, helem, hmod⟩ := split_shapes hsplit
    rcases hcase with ⟨hb, rfl⟩ | ⟨node, hb, rfl⟩
    · intro p hp
      rcases List.mem_append.mp hp with hp | hp
      · exact hP p hp
      · rw [List.mem_singleton] at hp
        subst hp
        rw [goodNames_mk]
        exact ⟨List.all_eq_true.mpr hbgood, by simp⟩
    · intro p hp
      rcases mem_updateBlock hp with hp | hp
      · exact hP p hp
      · subst hp
        exact goodNames_applyElemMod (hP (b, node) (lookupBlock_mem hb))
          (fun e hee => List.all_eq_true.mpr (helem e hee).2)
          (fun mo hmm => List.all_eq_true.mpr (hmod mo hmm))

theorem sortAllBlocks_goodNames {m : ISASSObject}
    (hP : ∀ p ∈ m, goodNames p.2 = true) :
    ∀ p ∈ sortAllBlocks m, goodNames p.2 = true := by
  intro p hp
  unfold sortAllBlocks at hp
  rcases List.mem_map.mp hp with ⟨q, hq, rfl⟩
  obtain ⟨q1, pn, cs⟩ := q
  have h := hP (q1, ⟨pn, cs⟩) hq
  rw [goodNames_mk] at h
  obtain ⟨h1, h2⟩ := h
  rw [goodNames_mk]
  refine ⟨h1, ?_⟩
  intro c hc
  exact h2 c ((sortSASSObjectChildren_perm cs).mem_iff.mp hc)

theorem braceScan_generateSCSS_aux :
    ∀ (f : ISASSObject) (acc : String) (d e : Nat),
    braceScan acc.data d = some e → (∀ p ∈ f, goodNames p.2 = true) →
    braceScan
      (f.foldl (fun result p => result ++ parseToSCSS p.2 "" 0) acc).data d =
      some e := by
  intro f
  induction f with
  | nil =>
    intro acc d e hacc h
    exact hacc
  | cons q f ih =>
    intro acc d e hacc h
    rw [List.foldl_cons]
    exact ih _ _ _
      (braceScan_str_append hacc
        (braceScan_parseToSCSS q.2 "" 0 e (h q (List.mem_cons_self _ _))))
      (fun p hp => h p (List.mem_cons_of_mem _ hp))

/-- C9: for every SelectorForest produced by the builder, the text from
generateSCSS (via parseToSCSS) is properly brace-nested (the scan never dips
below depth zero and ends at depth zero) and its opening and closing brace
counts are equal; each individual generated block is properly nested too. -/
theorem generateSCSS_braces_balanced :
    ∀ (cs : List String) (f : ISASSObject), extractSCSS cs = some f →
      braceScan (generateSCSS f).data 0 = some 0 ∧
      (generateSCSS f).data.count '\x7b' =
        (generateSCSS f).data.count '\x7d' ∧
      ∀ p ∈ f, braceScan (parseToSCSS p.2 "" 0).data 0 = some 0 := by
  intro cs f hf
  unfold extractSCSS at hf
  cases hfold : cs.foldlM bemStep [] with
  | none =>
    rw [hfold] at hf
    exact absurd hf (by simp)
  | some m =>
    rw [hfold] at hf
    simp only [Option.map_some', Option.some.injEq] at hf
    subst hf
    have hP := foldlM_bemStep_inv (fun m => ∀ p ∈ m, goodNames p.2 = true)
      (fun m c m' hP h => bemStep_goodNames hP h) cs (by simp) hfold
    have hGood := sortAllBlocks_goodNames hP
    have hscan : braceScan (generateSCSS (sortAllBlocks m)).data 0 = some 0 :=
      braceScan_generateSCSS_aux (sortAllBlocks m) "" 0 0 rfl hGood
    refine ⟨hscan, ?_, ?_⟩
    · have := braceScan_count hscan
      omega
    · intro p hp
      exact braceScan_parseToSCSS p.2 "" 0 0 (hGood p hp)

/-- C9 witness: the brace discipline instantiated on the spec round-trip
scenario. -/
theorem generateSCSS_braces_balanced_witness :
    braceScan (generateSCSS [("app", ⟨"app",
      [⟨"__header", [⟨"--mobile", []⟩]⟩,
        ⟨"__heading", [⟨"--h1", []⟩]⟩]⟩)]).data 0 = some 0 :=
  (generateSCSS_braces_balanced
    ["app", "app__header", "app__header--mobile", "app__heading--h1"]
    [("app", ⟨"app", [⟨"__header", [⟨"--mobile", []⟩]⟩,
      ⟨"__heading", [⟨"--h1", []⟩]⟩]⟩)] rfl).1

/-- C4: in every forest returned by the canonical extractSCSS, each block
root's direct children are in comparator order — modifier-named children
(captured name starting with "--") before element-named children,
alphabetically (localeCompare) within each group, stated as pairwise
non-positivity of the source comparator; deeper levels are not re-sorted
(the element's modifier children stay in insertion order "--z", "--a"); and
a block with modifier child "--large" and element child "__title" inserted
in that order serializes with "--large" before "__title". -/
theorem extractSCSS_block_children_sorted :
    (∀ (cs : List String) (f : ISASSObject), extractSCSS cs = some f →
      ∀ p ∈ f, p.2.children.Pairwise (fun a b => childCompare a b ≤ 0)) ∧
    extractSCSS ["b", "b--large", "b__title"] =
      some [("b", ⟨"b", [⟨"--large", []⟩, ⟨"__title", []⟩]⟩)] ∧
    generateSCSS [("b", ⟨"b", [⟨"--large", []⟩, ⟨"__title", []⟩]⟩)] =
      ".b \x7b\n  \n\t&--large \x7b\n\t  \n\t\x7d\n\t&__title \x7b\n\t  \n\t\x7d\n\x7d\n\n" ∧
    extractSCSS ["b", "b__e--z", "b__e--a"] =
      some [("b", ⟨"b", [⟨"__e", [⟨"--z", []⟩, ⟨"--a", []⟩]⟩]⟩)] := by
  refine ⟨?_, rfl, rfl, rfl⟩
  intro cs f hf
  unfold extractSCSS at hf
  cases hfold : cs.foldlM bemStep [] with
  | none =>
    rw [hfold] at hf
    exact absurd hf (by simp)
  | some m =>
    rw [hfold] at hf
    simp only [Option.map_some', Option.some.injEq] at hf
    subst hf
    intro p hp
    unfold sortAllBlocks at hp
    rcases List.mem_map.mp hp with ⟨q, hq, rfl⟩
    exact sortSASSObjectChildren_pairwise q.2.children

/-- C4 witness: the sortedness fact instantiated on the scenario forest. -/
theorem extractSCSS_block_children_sorted_witness :
    ([⟨"--large", []⟩, ⟨"__title", []⟩] : List SASSObjectItem).Pairwise
      (fun a b => childCompare a b ≤ 0) :=
  extractSCSS_block_children_sorted.1 ["b", "b--large", "b__title"]
    [("b", ⟨"b", [⟨"--large", []⟩, ⟨"__title", []⟩]⟩)] rfl
    ("b", ⟨"b", [⟨"--large", []⟩, ⟨"__title", []⟩]⟩)
    (List.mem_singleton.mpr rfl)

theorem splitSp_ne_nil (v : List Char) : splitSp v ≠ [] := by
  cases v with
  | nil => simp [splitSp]
  | cons c cs =>
    simp only [splitSp]
    by_cases h : c = ' '
    · rw [if_pos h]
      simp
    · rw [if_neg h]
      cases hs : splitSp cs with
      | nil => simp
      | cons t ts => simp

theorem splitSp_length (v : List Char) :
    (splitSp v).length = v.count ' ' + 1 := by
  induction v with
  | nil => rfl
  | cons c cs ih =>
    simp only [splitSp]
    by_cases h : c = ' '
    · rw [if_pos h]
      subst h
      simp only [List.length_cons, ih]
      simp [List.count_cons]
    · rw [if_neg h]
      cases hs : splitSp cs with
      | nil => exact absurd hs (splitSp_ne_nil cs)
      | cons t ts =>
        have hlen : (t :: ts).length = cs.count ' ' + 1 := hs ▸ ih
        simp only [List.length_cons] at hlen ⊢
        have hcc : (c == ' ') = false := by
          cases heq : c == ' '
          · rfl
          · exact absurd (by simpa using heq) h
        simp [List.count_cons, hcc]
        omega

/-- C3 counterexample: on the input `class="a  b"` (two spaces inside the
attribute value) the Extractor returns three tokens — "a", the empty string,
and "b" — because JS split(" ") keeps empty segments, while the number of
whitespace-separated words across matched attribute values is two, so the
claimed length equation fails. -/
theorem getAllClassName_neq_wordcount :
    getAllClassName "class=\"a  b\"" = ["a", "", "b"] ∧
    specWordCount "class=\"a  b\"" = 2 ∧
    (getAllClassName "class=\"a  b\"").length ≠
      specWordCount "class=\"a  b\"" := by
  refine ⟨rfl, rfl, ?_⟩
  decide

/-- C3 (amended): getAllClassName returns one ClassToken per single-space
separated segment of each matched class-attribute value (tolerating single
and double quotes), empty segments included, in the order attributes and
segments appear; hence for all input text its output length equals the sum
over all matched attribute values of (number of space characters + 1). -/
theorem getAllClassName_length (s : String) :
    (getAllClassName s).length =
      ((getMatches s.data).map (fun v => v.count ' ' + 1)).sum := by
  unfold getAllClassName
  rw [List.length_flatMap]
  congr 1
  apply List.map_congr_left
  intro v hv
  simp only [Function.comp_apply, List.length_map]
  exact splitSp_length v

end BEMScss
